import Mathlib

/-!
Verification of `scripts/update_data.py`: a batch job that fetches monthly
population statistics for two Swedish municipalities from the SCB API and
merges them into a persisted JSON dataset.

The Python script is shallowly embedded below.  Pure functions become Lean
functions; `dt.date` becomes the `Date` structure (the script only ever
constructs dates with day = 1); Python exceptions (`ValueError` from
`dt.date`/`parse_month`) become `Option`/`Except`; the file system and the
network are abstracted: a run takes the current file contents and the list of
rows the fetch produced as inputs.
-/

deriving instance DecidableEq for Except

namespace UpdateData

/-- One dataset row: an object with `region`, `month`, `population` keys,
as stored in `norrkoping_jonkoping_manad.json`. -/
structure Obs where
  region : String
  month : String
  population : Int
deriving DecidableEq

/-- `REGION_CODES = ["0581", "0680"]`. -/
def REGION_CODES : List String := ["0581", "0680"]

/-- `REGION_NAMES = {"0581": "Norrköping", "0680": "Jönköping"}`. -/
def REGION_NAMES : List (String × String) :=
  [("0581", "Norrköping"), ("0680", "Jönköping")]

/-- `REGION_NAMES.get(rc, rc)`: the display name for a region code, falling
back to the raw code when unrecognised. -/
def regionNameOf (rc : String) : String :=
  ((REGION_NAMES.lookup rc).getD rc)

/-- `set(REGION_NAMES.values())`, the full tracked-region set (as a list used
only up to membership). -/
def allRegionNames : List String := REGION_NAMES.map (·.2)

/-- A Python `datetime.date`.  Every `dt.date` constructed by the script has
`day = 1` (`parse_month`, `add_months` and `dt.date.min` all fix the day to the
first of the month). -/
structure Date where
  year : Nat
  month : Nat
  day : Nat
deriving DecidableEq

/-- Python `date < date`: lexicographic on (year, month, day). -/
def dateLt (a b : Date) : Bool :=
  a.year < b.year ||
    (a.year = b.year && (a.month < b.month ||
      (a.month = b.month && a.day < b.day)))

/-- Python `date <= date`. -/
def dateLe (a b : Date) : Bool :=
  dateLt a b || a = b

/-- `dt.date.min = date(1, 1, 1)`. -/
def dateMin : Date := ⟨1, 1, 1⟩

/-- The numeric value of a decimal digit character. -/
def digitVal (c : Char) : Nat := c.toNat - 48

/-- The decimal digit character for `n < 10`. -/
def digitChar (n : Nat) : Char := Char.ofNat (48 + n)

/-- `dt.date(y, m, 1)` as called by this script: Python raises `ValueError`
(here: `none`) unless `MINYEAR = 1 ≤ y ≤ 9999 = MAXYEAR` and `1 ≤ m ≤ 12`.
Every call site passes day 1, which is valid in every month, so the
day-against-month-length check never fires and the day is fixed to 1 here. -/
def mkDate (y m : Int) : Option Date :=
  if 1 ≤ y ∧ y ≤ 9999 ∧ 1 ≤ m ∧ m ≤ 12 then
    some ⟨y.toNat, m.toNat, 1⟩
  else
    none

/-- The start codepoints of the contiguous 10-character runs making up the
Unicode `Nd` (decimal digit) category, Unicode 14.0 (CPython 3.11's table):
what Python's `\d` matches in a `str` pattern.  Each run holds the digits
0–9 in order, so a digit's value is its offset from the run start (which is
also what `int()` uses to convert such a digit).  The ASCII digits (48) come
first. -/
def ndRangeStarts : List Nat :=
  [48, 1632, 1776, 1984, 2406, 2534, 2662, 2790, 2918, 3046, 3174, 3302,
   3430, 3558, 3664, 3792, 3872, 4160, 4240, 6112, 6160, 6470, 6608, 6784,
   6800, 6992, 7088, 7232, 7248, 42528, 43216, 43264, 43472, 43504, 43600,
   44016, 65296, 66720, 68912, 69734, 69872, 69942, 70096, 70384, 70736,
   70864, 71248, 71360, 71472, 71904, 72016, 72784, 73040, 73120, 92768,
   92864, 93008, 120782, 120792, 120802, 120812, 120822, 123200, 123632,
   125264, 130032]

/-- The `Nd` run (if any) a character belongs to. -/
def pyDigitFind (c : Char) : Option Nat :=
  ndRangeStarts.find? (fun s => decide (s ≤ c.toNat ∧ c.toNat < s + 10))

/-- Python `\d`: does the character belong to Unicode category `Nd`? -/
def isPyDigit (c : Char) : Bool :=
  (pyDigitFind c).isSome

/-- The decimal value of an `Nd` digit (0 for non-digits; only ever used
under `isPyDigit`): what `int()` contributes for this character. -/
def pyDigitVal (c : Char) : Nat :=
  match pyDigitFind c with
  | some s => c.toNat - s
  | none => 0

/-- The captured groups of `MONTH_RE` once the seven pattern characters have
matched: all six digit slots must be Unicode decimal digits and the
separator the literal `M`; `int()` then converts each group by decimal
value. -/
def monthReGroups (c1 c2 c3 c4 m c5 c6 : Char) : Option (Nat × Nat) :=
  if isPyDigit c1 && isPyDigit c2 && isPyDigit c3 && isPyDigit c4 && m = 'M'
      && isPyDigit c5 && isPyDigit c6 then
    some (((pyDigitVal c1 * 10 + pyDigitVal c2) * 10 + pyDigitVal c3) * 10
            + pyDigitVal c4,
          pyDigitVal c5 * 10 + pyDigitVal c6)
  else
    none

/-- `MONTH_RE.match(s)` for `MONTH_RE = ^(\d{4})M(\d{2})$`: `none` when the
regex does not match, otherwise the two captured groups converted by `int`.
Python semantics: `\d` matches any Unicode decimal digit (category `Nd`),
and `$` (without `re.MULTILINE`) matches at the end of the string *or just
before a single trailing newline*, so both the 7-character form and the
8-character form ending in `'\n'` match. -/
def monthReMatch (s : String) : Option (Nat × Nat) :=
  match s.data with
  | [c1, c2, c3, c4, m, c5, c6] => monthReGroups c1 c2 c3 c4 m c5 c6
  | [c1, c2, c3, c4, m, c5, c6, nl] =>
    if nl = '\n' then monthReGroups c1 c2 c3 c4 m c5 c6 else none
  | _ => none

/-- `parse_month`: regex match (raising `ValueError`/`none` on failure), then
`dt.date(y, mm, 1)` (which itself raises `ValueError`/`none` when `y = 0` or
`mm ∉ [1, 12]`; `y ≤ 9999` holds for any 4-digit group). -/
def parse_month (s : String) : Option Date :=
  match monthReMatch s with
  | none => none
  | some (y, mm) => mkDate y mm

/-- Python `f"{y}"` (unpadded decimal) for the `dt.date` year range
`1 ≤ y ≤ 9999`: at most four digits, written out by magnitude. -/
def yearRepr (y : Nat) : List Char :=
  if y < 10 then [digitChar y]
  else if y < 100 then [digitChar (y / 10), digitChar (y % 10)]
  else if y < 1000 then
    [digitChar (y / 100), digitChar (y / 10 % 10), digitChar (y % 10)]
  else
    [digitChar (y / 1000), digitChar (y / 100 % 10), digitChar (y / 10 % 10),
     digitChar (y % 10)]

/-- Python `f"{m:02d}"` for `1 ≤ m ≤ 12`: zero-padded to two digits. -/
def pad2 (m : Nat) : List Char :=
  if m < 10 then ['0', digitChar m]
  else [digitChar (m / 10), digitChar (m % 10)]

/-- `month_to_str(d) = f"{d.year}M{d.month:02d}"`. -/
def month_to_str (d : Date) : String :=
  ⟨yearRepr d.year ++ 'M' :: pad2 d.month⟩

/-- `add_months(d, n)`: `y = d.year + (d.month - 1 + n) // 12`,
`m = (d.month - 1 + n) % 12 + 1`, then `dt.date(y, m, 1)`.  Python `//` and
`%` are floor division, i.e. `Int.fdiv` / `Int.fmod`; the constructor raises
(`none`) when the resulting year leaves `[1, 9999]`. -/
def add_months (d : Date) (n : Int) : Option Date :=
  mkDate ((d.year : Int) + ((d.month : Int) - 1 + n).fdiv 12)
         (((d.month : Int) - 1 + n).fmod 12 + 1)

/-! ## Dataset reader (`find_latest_complete_month`, `read_existing`) -/

/-- Python `str <= str` on char lists: lexicographic by Unicode code point. -/
def pyStrLeChars : List Char → List Char → Bool
  | [], _ => true
  | _ :: _, [] => false
  | a :: as, b :: bs =>
    if a.toNat < b.toNat then true
    else if a.toNat = b.toNat then pyStrLeChars as bs
    else false

/-- Python `s <= t` on strings. -/
def pyStrLe (s t : String) : Bool := pyStrLeChars s.data t.data

/-- `regions_by_month[m]` after the grouping loop: the regions of the rows
whose `month` field is exactly `m` (a Python `set`, used up to membership). -/
def regionsForMonth (rows : List Obs) (m : String) : List String :=
  (rows.filter (fun r => r.month = m)).map (·.region)

/-- Python `set == set` between the two region collections. -/
def setEqB (as bs : List String) : Bool :=
  as.all (fun x => bs.contains x) && bs.all (fun x => as.contains x)

/-- One iteration of the `find_latest_complete_month` loop: if the month's
region set equals the tracked set, try to parse it (a `ValueError` is
swallowed by the `except: continue`) and keep the later date. -/
def flcmStep (rows : List Obs) (allR : List String)
    (latest : Option Date) (mstr : String) : Option Date :=
  if setEqB (regionsForMonth rows mstr) allR then
    match parse_month mstr with
    | some d =>
      match latest with
      | none => some d
      | some l => if dateLt l d then some d else some l
    | none => latest
  else latest

/-- `find_latest_complete_month(rows, all_region_names)`: group the regions
present for each month string, then keep the greatest parseable month whose
region set equals `all_region_names` exactly.  The Python loop walks the dict
keys (each distinct month once, here `eraseDups`). -/
def find_latest_complete_month (rows : List Obs) (allR : List String) :
    Option Date :=
  ((rows.map (·.month)).eraseDups).foldl (flcmStep rows allR) none

/-- The (region, month) identity of a row, as used for the `seen` set. -/
def obsKey (r : Obs) : String × String := (r.region, r.month)

/-- `read_existing` after the JSON load (missing/empty file is the
`latest = none` outcome with no rows): compute the latest complete month,
filter `r["month"] <= month_to_str(latest)` (raw string comparison) when a
latest month exists, and build the `seen` set of (region, month) pairs. -/
def read_existing (fileRows : List Obs) :
    List Obs × List (String × String) × Option Date :=
  let latest := find_latest_complete_month fileRows allRegionNames
  let rows :=
    match latest with
    | some l => fileRows.filter (fun r => pyStrLe r.month (month_to_str l))
    | none => fileRows
  (rows, rows.map obsKey, latest)

/-! ## Text-table parser (`fetch_scb` row loop) -/

/-- The inner `for mo in months` loop of `fetch_scb` for one region code:
emits a row per month while values remain, threading the flat index `idx`
(`break` leaves the inner loop once `idx >= len(numbers)`). -/
def innerRows (rc : String) (numbers : List Int) :
    List String → Nat → Nat × List Obs
  | [], idx => (idx, [])
  | mo :: rest, idx =>
    if numbers.length ≤ idx then (idx, [])
    else
      let val := numbers.getD idx 0
      let next := innerRows rc numbers rest (idx + 1)
      (next.1, ⟨regionNameOf rc, mo, val⟩ :: next.2)

/-- The outer `for rc in reg_codes` loop of `fetch_scb`: after an inner
`break` the outer loop continues with the next region code, whose inner loop
breaks again immediately since `idx` never decreases. -/
def outerRows (months : List String) (numbers : List Int) :
    List String → Nat → List Obs
  | [], _ => []
  | rc :: rest, idx =>
    let inner := innerRows rc numbers months idx
    inner.2 ++ outerRows months numbers rest inner.1

/-- The row-construction part of `fetch_scb`: given the region-code order,
the requested months and the integers extracted from the `DATA=` block,
build the observation list. -/
def buildRows (regCodes months : List String) (numbers : List Int) :
    List Obs :=
  outerRows months numbers regCodes 0

/-- The flat (region code, month) layout order of the response: outer loop
over region codes, inner loop over requested months. -/
def flatLayout (regCodes months : List String) : List (String × String) :=
  regCodes.flatMap (fun rc => months.map (fun mo => (rc, mo)))

/-! ## Merge & persist (`main`) -/

/-- The merge loop of `main`: skip a fetched row whose (region, month) pair
is already in `seen`, otherwise append it, record the pair, and count it. -/
def mergeLoop (rows : List Obs) (seen : List (String × String)) (added : Nat) :
    List Obs → List Obs × List (String × String) × Nat
  | [] => (rows, seen, added)
  | r :: rest =>
    if obsKey r ∈ seen then mergeLoop rows seen added rest
    else mergeLoop (rows ++ [r]) (obsKey r :: seen) (added + 1) rest

/-- `sort_key(r)`: `parse_month(r["month"])` when `MONTH_RE` matches — note
that `parse_month` can still raise `ValueError` (year 0000 or month 00/13–99
pass the regex but fail `dt.date`), which would crash the sort (`none`) —
else `dt.date.min`; paired with the region name. -/
def sort_key (r : Obs) : Option (Date × String) :=
  match monthReMatch r.month with
  | some _ =>
    match parse_month r.month with
    | some d => some (d, r.region)
    | none => none
  | none => some (dateMin, r.region)

/-- Python tuple comparison `(date, str) <= (date, str)`. -/
def keyLe (a b : Date × String) : Bool :=
  dateLt a.1 b.1 || (a.1 = b.1 && pyStrLe a.2 b.2)

/-- Compute each row's sort key (Python evaluates the key function once per
element before sorting; a `ValueError` there aborts the whole sort). -/
def decorate : List Obs → Option (List ((Date × String) × Obs))
  | [] => some []
  | r :: rest =>
    match sort_key r, decorate rest with
    | some k, some ds => some ((k, r) :: ds)
    | _, _ => none

/-- Insert an element in front of the first list element it compares `le` to
(keeping it before later ties, as a stable sort does). -/
def insertLe (le : α → α → Bool) (a : α) : List α → List α
  | [] => [a]
  | b :: bs => if le a b then a :: b :: bs else b :: insertLe le a bs

/-- Stable insertion sort.  Python `list.sort` is a stable sort; for a total,
transitive `le` the stable sorted arrangement is unique, so this function
computes exactly the list `list.sort` produces. -/
def stableSort (le : α → α → Bool) : List α → List α
  | [] => []
  | a :: rest => insertLe le a (stableSort le rest)

/-- `rows.sort(key=sort_key)`: a stable sort by the precomputed keys;
`none` models the sort crashing on an unkeyable row. -/
def sortRows (rows : List Obs) : Option (List Obs) :=
  match decorate rows with
  | none => none
  | some keyed =>
    some ((stableSort (fun a b => keyLe a.1 b.1) keyed).map (·.2))

/-- One run of `main`, with the clock and the network abstracted: `fetched`
is whatever `fetch_scb` returned (`[]` both when nothing needed fetching and
when the API answered 400).  `.ok none`: the run exits 0 without writing the
file; `.ok (some out)`: the run rewrites the file with `out`; `.error ()`:
the run dies on an uncaught exception before any write (the sort happens
before the file is opened). -/
def run (fileRows fetched : List Obs) : Except Unit (Option (List Obs)) :=
  let re := read_existing fileRows
  match re.2.2 with
  | none => .ok none
  | some _ =>
    let m := mergeLoop re.1 re.2.1 0 fetched
    if m.2.2 = 0 then .ok none
    else
      match sortRows m.1 with
      | some sorted => .ok (some sorted)
      | none => .error ()

/-- A sequence of successive runs: each run sees the file its predecessor
left behind (a run that does not write, or crashes before writing, leaves
the file unchanged). -/
def runSeq (file : List Obs) : List (List Obs) → List Obs
  | [] => file
  | f :: fs =>
    runSeq (match run file f with | .ok (some out) => out | _ => file) fs

/-! ## Specification-side predicates (stated from the claims, to be compared
with the embedded code) -/

/-- The month-token pattern exactly as the claim words it: a 4-digit year,
the literal separator `M`, and a 2-digit month in the range 01–12 (no
constraint on the year digits). -/
def claimMonthPattern (s : String) : Bool :=
  match s.data with
  | [c1, c2, c3, c4, m, c5, c6] =>
    c1.isDigit && c2.isDigit && c3.isDigit && c4.isDigit && m = 'M'
      && c5.isDigit && c6.isDigit
      && decide (1 ≤ digitVal c5 * 10 + digitVal c6)
      && decide (digitVal c5 * 10 + digitVal c6 ≤ 12)
  | _ => false

/-- The seven-character core of the pattern as the program actually accepts
it: Unicode decimal digits (Python `\d`), a nonzero year and a month in
01–12 (the `dt.date` constraints). -/
def amendedGroupsOk (c1 c2 c3 c4 m c5 c6 : Char) : Bool :=
  isPyDigit c1 && isPyDigit c2 && isPyDigit c3 && isPyDigit c4
    && decide (m = 'M') && isPyDigit c5 && isPyDigit c6
    && decide (1 ≤ pyDigitVal c5 * 10 + pyDigitVal c6)
    && decide (pyDigitVal c5 * 10 + pyDigitVal c6 ≤ 12)
    && decide
      (1 ≤ ((pyDigitVal c1 * 10 + pyDigitVal c2) * 10 + pyDigitVal c3) * 10
        + pyDigitVal c4)

/-- The claim's pattern amended to what the code accepts: four Unicode
decimal digits, the literal `M`, two Unicode decimal digits — optionally
followed by one trailing newline (Python's `$`) — with a nonzero year value
(`dt.date` rejects year 0) and a month value in 01–12. -/
def amendedMonthPattern (s : String) : Bool :=
  match s.data with
  | [c1, c2, c3, c4, m, c5, c6] => amendedGroupsOk c1 c2 c3 c4 m c5 c6
  | [c1, c2, c3, c4, m, c5, c6, nl] =>
    decide (nl = '\n') && amendedGroupsOk c1 c2 c3 c4 m c5 c6
  | _ => false

/-- A month token in canonical rendered form: exactly four ASCII digits,
`M`, two ASCII digits, with no trailing newline (the form `month_to_str`
produces for four-digit years). -/
def asciiCanonicalToken (s : String) : Bool :=
  match s.data with
  | [c1, c2, c3, c4, m, c5, c6] =>
    c1.isDigit && c2.isDigit && c3.isDigit && c4.isDigit && m = 'M'
      && c5.isDigit && c6.isDigit
  | _ => false

/-- A date is a "candidate" latest complete month of a dataset: some stored
month token decodes to it and the regions present for that token are exactly
the tracked-region set. -/
def cand (rows : List Obs) (allR : List String) (d : Date) : Prop :=
  ∃ mstr, mstr ∈ rows.map (·.month) ∧ parse_month mstr = some d ∧
    setEqB (regionsForMonth rows mstr) allR = true

/-- The sort order of two rows, read off their sort keys (vacuously true when
a key would crash; the sorted-output theorems only ever apply it to rows the
sort accepted). -/
def obsLeB (a b : Obs) : Bool :=
  match sort_key a, sort_key b with
  | some ka, some kb => keyLe ka kb
  | _, _ => true

/-- The dataset invariant of the claims: sorted ascending by sort key
(decoded month, then region name) and no duplicate (region, month) pair. -/
def Inv (rows : List Obs) : Prop :=
  rows.Pairwise (fun a b => obsLeB a b = true) ∧ (rows.map obsKey).Nodup

/-- Sortedness in the words of the claim: for any two rows in order whose
month tokens decode, the decoded months ascend, ties broken by region name. -/
def decodedSorted (rows : List Obs) : Prop :=
  rows.Pairwise (fun a b => ∀ da db, parse_month a.month = some da →
    parse_month b.month = some db →
    (dateLt da db = true ∨ (da = db ∧ pyStrLe a.region b.region = true)))

end UpdateData

namespace UpdateData

/-! ## Order lemmas -/

theorem dateLe_refl (a : Date) : dateLe a a = true := by
  simp [dateLe]

theorem dateLe_antisymm {a b : Date} (h1 : dateLe a b = true)
    (h2 : dateLe b a = true) : a = b := by
  cases a; cases b
  simp only [dateLe, dateLt, Bool.or_eq_true, Bool.and_eq_true,
    decide_eq_true_eq, Date.mk.injEq] at h1 h2 ⊢
  omega

theorem dateLe_trans {a b c : Date} (h1 : dateLe a b = true)
    (h2 : dateLe b c = true) : dateLe a c = true := by
  cases a; cases b; cases c
  simp only [dateLe, dateLt, Bool.or_eq_true, Bool.and_eq_true,
    decide_eq_true_eq, Date.mk.injEq] at h1 h2 ⊢
  omega

theorem dateLt_or_le (a b : Date) : dateLt a b = true ∨ dateLe b a = true := by
  cases a; cases b
  simp only [dateLe, dateLt, Bool.or_eq_true, Bool.and_eq_true,
    decide_eq_true_eq, Date.mk.injEq, lt_self_iff_false, and_false, or_false,
    and_true]
  omega

/-! ## C9: `add_months` round trip -/

/-- C9: for every calendar month `m` (a valid `dt.date` with day 1) and every
integer `n`, whenever both additions stay in the representable `dt.date`
range, `add_months (add_months m n) (-n) = m`; moreover the intermediate
result has its day fixed to the first of the month, and its year/month encode
exactly `n` months after `m` (correct year rollover). -/
theorem add_months_round_trip (m : Date) (n : Int)
    (hmonth : 1 ≤ m.month) (hmonth2 : m.month ≤ 12) (hday : m.day = 1)
    (m' m'' : Date)
    (h1 : add_months m n = some m')
    (h2 : add_months m' (-n) = some m'') :
    m'' = m ∧ m'.day = 1 ∧
      (m'.year : Int) * 12 + m'.month = (m.year : Int) * 12 + m.month + n := by
  cases m with
  | mk my mm md =>
  simp only at hmonth hmonth2 hday
  subst hday
  unfold add_months mkDate at h1
  rw [Int.fdiv_eq_ediv _ (by norm_num), Int.fmod_eq_emod _ (by norm_num)] at h1
  dsimp only at h1
  split at h1
  case isFalse => exact absurd h1 (by simp)
  case isTrue hc1 =>
  injection h1 with h1e
  subst h1e
  unfold add_months mkDate at h2
  rw [Int.fdiv_eq_ediv _ (by norm_num), Int.fmod_eq_emod _ (by norm_num)] at h2
  dsimp only at h2
  split at h2
  case isFalse => exact absurd h2 (by simp)
  case isTrue hc2 =>
  injection h2 with h2e
  subst h2e
  simp only [Date.mk.injEq, and_true, true_and]
  omega

/-- Witness for C9 at `m = 2025-07-01`, `n = 7`. -/
theorem add_months_round_trip_witness :
    add_months ⟨2025, 7, 1⟩ 7 = some ⟨2026, 2, 1⟩ ∧
      add_months ⟨2026, 2, 1⟩ (-7) = some ⟨2025, 7, 1⟩ ∧
      (⟨2025, 7, 1⟩ : Date) = ⟨2025, 7, 1⟩ ∧ (2026 : Int) * 12 + 2 = 2025 * 12 + 7 + 7 := by
  refine ⟨by decide, by decide, ?_, by norm_num⟩
  have h := add_months_round_trip ⟨2025, 7, 1⟩ 7 (by decide) (by decide) (by decide)
    ⟨2026, 2, 1⟩ ⟨2025, 7, 1⟩ (by decide) (by decide)
  exact h.1.symm ▸ rfl

/-! ## Digit-character lemmas -/

theorem isDigit_toNat {c : Char} (h : c.isDigit = true) :
    48 ≤ c.toNat ∧ c.toNat ≤ 57 := by
  simp only [Char.isDigit, ge_iff_le, Bool.and_eq_true, decide_eq_true_eq] at h
  obtain ⟨h1, h2⟩ := h
  rw [UInt32.le_def, BitVec.le_def] at h1 h2
  exact ⟨h1, h2⟩

theorem digitVal_le_nine {c : Char} (h : c.isDigit = true) : digitVal c ≤ 9 := by
  have := isDigit_toNat h
  unfold digitVal
  omega

theorem digitChar_digitVal {c : Char} (h : c.isDigit = true) :
    digitChar (digitVal c) = c := by
  have hb := isDigit_toNat h
  have he : 48 + digitVal c = c.toNat := by unfold digitVal; omega
  rw [digitChar, he, Char.ofNat_toNat]

/-! ## Unicode-digit lemmas -/

theorem pyDigitFind_spec {c : Char} {s : Nat} (h : pyDigitFind c = some s) :
    s ≤ c.toNat ∧ c.toNat < s + 10 := by
  have := List.find?_some h
  simpa using this

theorem isPyDigit_exists {c : Char} (h : isPyDigit c = true) :
    ∃ s, pyDigitFind c = some s := by
  unfold isPyDigit at h
  exact Option.isSome_iff_exists.mp h

theorem pyDigitVal_le_nine {c : Char} (h : isPyDigit c = true) :
    pyDigitVal c ≤ 9 := by
  obtain ⟨s, hs⟩ := isPyDigit_exists h
  have hb := pyDigitFind_spec hs
  unfold pyDigitVal
  rw [hs]
  dsimp only
  omega

theorem ascii_isPyDigit {c : Char} (h : c.isDigit = true) :
    isPyDigit c = true ∧ pyDigitVal c = digitVal c := by
  have hb := isDigit_toNat h
  have hfind : pyDigitFind c = some 48 := by
    unfold pyDigitFind ndRangeStarts
    exact List.find?_cons_of_pos _ (by simp only [decide_eq_true_eq]; omega)
  refine ⟨?_, ?_⟩
  · unfold isPyDigit
    rw [hfind]
    rfl
  · unfold pyDigitVal digitVal
    rw [hfind]

/-! ## C6: domain of `parse_month` -/

/-- C6 counterexample: `"0000M01"` matches the claim's pattern (4-digit year,
`M`, month 01–12) yet `parse_month` raises `ValueError` on it (`dt.date`
rejects year 0); conversely `"2025M01\n"` is not of the claimed 7-character
shape yet `parse_month` accepts it, because Python's `$` also matches just
before a trailing newline. -/
theorem parse_month_claim_pattern_counterexample :
    (claimMonthPattern "0000M01" = true ∧ parse_month "0000M01" = none) ∧
      (claimMonthPattern "2025M01\n" = false ∧
        parse_month "2025M01\n" = some ⟨2025, 1, 1⟩) := by
  decide

theorem groups_isSome_iff (c1 c2 c3 c4 m c5 c6 : Char) :
    (parse_month ⟨[c1, c2, c3, c4, m, c5, c6]⟩).isSome
      = amendedGroupsOk c1 c2 c3 c4 m c5 c6 := by
  unfold parse_month monthReMatch
  dsimp only
  unfold monthReGroups amendedGroupsOk
  by_cases hC : (isPyDigit c1 && isPyDigit c2 && isPyDigit c3 && isPyDigit c4
      && decide (m = 'M') && isPyDigit c5 && isPyDigit c6) = true
  · have hd := hC
    simp only [Bool.and_eq_true, decide_eq_true_eq] at hd
    obtain ⟨⟨⟨⟨⟨⟨hd1, hd2⟩, hd3⟩, hd4⟩, hm⟩, hd5⟩, hd6⟩ := hd
    have b1 := pyDigitVal_le_nine hd1
    have b2 := pyDigitVal_le_nine hd2
    have b3 := pyDigitVal_le_nine hd3
    have b4 := pyDigitVal_le_nine hd4
    have b5 := pyDigitVal_le_nine hd5
    have b6 := pyDigitVal_le_nine hd6
    simp only [hC, if_true, Bool.true_and, mkDate]
    rw [Bool.eq_iff_iff]
    constructor
    · intro hsome
      split at hsome
      next hcond =>
        simp only [Bool.and_eq_true, decide_eq_true_eq]
        omega
      next => simp at hsome
    · intro hpat
      simp only [Bool.and_eq_true, decide_eq_true_eq] at hpat
      rw [if_pos (by constructor <;> omega)]
      rfl
  · rw [Bool.not_eq_true] at hC
    simp [hC]

theorem parse_isSome_newline (c1 c2 c3 c4 m c5 c6 nl : Char) :
    (parse_month ⟨[c1, c2, c3, c4, m, c5, c6, nl]⟩).isSome
      = (decide (nl = '\n') && amendedGroupsOk c1 c2 c3 c4 m c5 c6) := by
  by_cases hnl : nl = '\n'
  · subst hnl
    have h7 : parse_month ⟨[c1, c2, c3, c4, m, c5, c6, '\n']⟩
        = parse_month ⟨[c1, c2, c3, c4, m, c5, c6]⟩ := by
      unfold parse_month monthReMatch
      dsimp only
      rw [if_pos rfl]
    rw [h7, groups_isSome_iff]
    simp
  · have hd : decide (nl = '\n') = false := by
      simp [hnl]
    rw [hd, Bool.false_and]
    unfold parse_month monthReMatch
    dsimp only
    rw [if_neg hnl]
    rfl

/-- C6 amended: `parse_month` succeeds exactly on the tokens matching the
pattern as the program reads it — four Unicode decimal digits, `M`, two
Unicode decimal digits, optionally followed by one trailing newline — with a
nonzero year and a month in 01–12, and raises `ValueError` (`none`) on every
other string. -/
theorem parse_month_succeeds_iff_amended_pattern (s : String) :
    (parse_month s).isSome = amendedMonthPattern s := by
  obtain ⟨data⟩ := s
  rcases data with _ | ⟨c1, _ | ⟨c2, _ | ⟨c3, _ | ⟨c4, _ | ⟨m, _ | ⟨c5,
    _ | ⟨c6, _ | ⟨c8, _ | ⟨c9, l⟩⟩⟩⟩⟩⟩⟩⟩⟩ <;> try rfl
  · exact groups_isSome_iff c1 c2 c3 c4 m c5 c6
  · exact parse_isSome_newline c1 c2 c3 c4 m c5 c6 c8

/-! ## C5: `parse_month` / `month_to_str` round trip -/

/-- C5 counterexample: `"0581M01"` is a valid token (`parse_month` accepts
it), but `month_to_str` does not zero-pad the year, so the round trip yields
`"581M01"`, not the original token; and `"2025M01\n"` is also accepted
(Python's `$` matches before a trailing newline) yet renders back without
the newline. -/
theorem month_round_trip_counterexample :
    (parse_month "0581M01" = some ⟨581, 1, 1⟩ ∧
      month_to_str ⟨581, 1, 1⟩ = "581M01" ∧
      month_to_str ⟨581, 1, 1⟩ ≠ "0581M01") ∧
      (parse_month "2025M01\n" = some ⟨2025, 1, 1⟩ ∧
        month_to_str ⟨2025, 1, 1⟩ ≠ "2025M01\n") := by
  decide

/-- C5 amended: for every accepted token in canonical rendered form (four
ASCII digits, `M`, two ASCII digits, no trailing newline) whose year is at
least 1000 (four significant digits), `month_to_str` reproduces the token
exactly, character for character.  (Accepted tokens outside that form — a
year below 1000, Unicode digits, or a trailing newline — do not round-trip.) -/
theorem month_round_trip (s : String) (d : Date)
    (hp : parse_month s = some d) (hc : asciiCanonicalToken s = true)
    (hy : 1000 ≤ d.year) :
    month_to_str d = s := by
  obtain ⟨data⟩ := s
  unfold parse_month monthReMatch at hp
  unfold asciiCanonicalToken at hc
  dsimp only at hp hc
  rcases data with _ | ⟨c1, _ | ⟨c2, _ | ⟨c3, _ | ⟨c4, _ | ⟨m, _ | ⟨c5,
    _ | ⟨c6, _ | ⟨c8, l⟩⟩⟩⟩⟩⟩⟩⟩
  · exact absurd hc (by simp)
  · exact absurd hc (by simp)
  · exact absurd hc (by simp)
  · exact absurd hc (by simp)
  · exact absurd hc (by simp)
  · exact absurd hc (by simp)
  · exact absurd hc (by simp)
  pick_goal 2
  · exact absurd hc (by simp)
  dsimp only at hp hc
  simp only [Bool.and_eq_true, decide_eq_true_eq] at hc
  obtain ⟨⟨⟨⟨⟨⟨hd1, hd2⟩, hd3⟩, hd4⟩, hm⟩, hd5⟩, hd6⟩ := hc
  subst hm
  have p1 := ascii_isPyDigit hd1
  have p2 := ascii_isPyDigit hd2
  have p3 := ascii_isPyDigit hd3
  have p4 := ascii_isPyDigit hd4
  have p5 := ascii_isPyDigit hd5
  have p6 := ascii_isPyDigit hd6
  unfold monthReGroups at hp
  rw [if_pos (by simp [p1.1, p2.1, p3.1, p4.1, p5.1, p6.1])] at hp
  dsimp only at hp
  rw [p1.2, p2.2, p3.2, p4.2, p5.2, p6.2] at hp
  unfold mkDate at hp
  split at hp
  pick_goal 2
  · exact absurd hp (by simp)
  rename_i hcond
  injection hp with hp
  have b1 := digitVal_le_nine hd1
  have b2 := digitVal_le_nine hd2
  have b3 := digitVal_le_nine hd3
  have b4 := digitVal_le_nine hd4
  have b5 := digitVal_le_nine hd5
  have b6 := digitVal_le_nine hd6
  rw [← hp] at hy ⊢
  dsimp only [month_to_str]
  simp only [Int.toNat_natCast] at hy ⊢
  rw [String.ext_iff]
  dsimp only
  set y : Nat := ((digitVal c1 * 10 + digitVal c2) * 10 + digitVal c3) * 10
    + digitVal c4 with hydef
  set mm : Nat := digitVal c5 * 10 + digitVal c6 with hmmdef
  have hy4 : ¬ y < 10 := by omega
  have hy3 : ¬ y < 100 := by omega
  have hy2 : ¬ y < 1000 := by omega
  rw [yearRepr, if_neg hy4, if_neg hy3, if_neg hy2]
  have e1 : y / 1000 = digitVal c1 := by omega
  have e2 : y / 100 % 10 = digitVal c2 := by omega
  have e3 : y / 10 % 10 = digitVal c3 := by omega
  have e4 : y % 10 = digitVal c4 := by omega
  rw [e1, e2, e3, e4, digitChar_digitVal hd1, digitChar_digitVal hd2,
    digitChar_digitVal hd3, digitChar_digitVal hd4]
  rw [pad2]
  by_cases hmm : mm < 10
  · have e5 : digitVal c5 = 0 := by omega
    have e6 : mm = digitVal c6 := by omega
    rw [if_pos hmm, e6, digitChar_digitVal hd6]
    have hc5 : c5 = '0' := by
      have hdd := digitChar_digitVal hd5
      rw [e5] at hdd
      exact hdd.symm
    rw [hc5]
    rfl
  · have e5 : mm / 10 = digitVal c5 := by omega
    have e6 : mm % 10 = digitVal c6 := by omega
    rw [if_neg hmm, e5, e6, digitChar_digitVal hd5, digitChar_digitVal hd6]
    rfl

/-- Witness for the amended C5 at `"2025M07"`. -/
theorem month_round_trip_witness :
    parse_month "2025M07" = some ⟨2025, 7, 1⟩ ∧
      asciiCanonicalToken "2025M07" = true ∧
      month_to_str (⟨2025, 7, 1⟩ : Date) = "2025M07" := by
  exact ⟨by decide, by decide,
    month_round_trip "2025M07" ⟨2025, 7, 1⟩ (by decide) (by decide) (by decide)⟩

/-! ## Parser row-layout lemmas -/

theorem zip_append_drop (A : List α) (B : List α) (ns : List β) :
    (A ++ B).zip ns = A.zip ns ++ B.zip (ns.drop A.length) := by
  induction A generalizing ns with
  | nil => simp
  | cons a as ih =>
    cases ns with
    | nil => simp
    | cons n ns' => simp [ih]

theorem innerRows_eq (rc : String) (numbers : List Int) :
    ∀ (months : List String) (idx : Nat),
      innerRows rc numbers months idx =
        (idx + min months.length (numbers.length - idx),
         (months.zip (numbers.drop idx)).map
           (fun p => ⟨regionNameOf rc, p.1, p.2⟩)) := by
  intro months
  induction months with
  | nil =>
    intro idx
    simp only [innerRows, List.length_nil, List.zip_nil_left, List.map_nil,
      Prod.mk.injEq]
    refine ⟨by omega, trivial⟩
  | cons mo rest ih =>
    intro idx
    rw [innerRows]
    by_cases hle : numbers.length ≤ idx
    · rw [if_pos hle]
      have hdrop : numbers.drop idx = [] := List.drop_eq_nil_of_le hle
      rw [hdrop]
      simp only [List.zip_nil_right, List.map_nil, Prod.mk.injEq, List.length_cons]
      refine ⟨by omega, trivial⟩
    · rw [if_neg hle]
      have hlt : idx < numbers.length := by omega
      rw [ih (idx + 1)]
      have hdrop : numbers.drop idx = numbers[idx] :: numbers.drop (idx + 1) :=
        List.drop_eq_getElem_cons hlt
      have hgetD : numbers.getD idx 0 = numbers[idx] := List.getD_eq_getElem _ _ hlt
      rw [hdrop, hgetD]
      simp only [List.zip_cons_cons, List.map_cons, List.length_cons,
        Prod.mk.injEq]
      refine ⟨by omega, trivial⟩

theorem outerRows_eq (months : List String) (numbers : List Int) :
    ∀ (regCodes : List String) (idx : Nat),
      outerRows months numbers regCodes idx =
        ((flatLayout regCodes months).zip (numbers.drop idx)).map
          (fun p => ⟨regionNameOf p.1.1, p.1.2, p.2⟩) := by
  intro regCodes
  induction regCodes with
  | nil => intro idx; simp [outerRows, flatLayout]
  | cons rc rest ih =>
    intro idx
    rw [outerRows, innerRows_eq]
    dsimp only
    rw [ih]
    have hflat : flatLayout (rc :: rest) months =
        months.map (fun mo => (rc, mo)) ++ flatLayout rest months := by
      simp [flatLayout]
    rw [hflat, zip_append_drop, List.map_append]
    congr 1
    · rw [List.zip_map_left, List.map_map]
      rfl
    · have hlen : (months.map (fun mo => (rc, mo))).length = months.length := by
        simp
      rw [hlen, List.drop_drop]
      by_cases hcase : months.length ≤ numbers.length - idx
      · have e : idx + min months.length (numbers.length - idx) =
            idx + months.length := by omega
        rw [e]
      · have h1 : numbers.drop (idx + months.length) = [] :=
          List.drop_eq_nil_of_le (by omega)
        have h2 : numbers.drop (idx + min months.length (numbers.length - idx)) = [] :=
          List.drop_eq_nil_of_le (by omega)
        rw [h1, h2]

/-- The `fetch_scb` row loop, closed form: rows are the flat
(region code, month) layout zipped with the extracted integers (the zip
truncating to the shorter side), each pair turned into an observation. -/
theorem buildRows_eq (regCodes months : List String) (numbers : List Int) :
    buildRows regCodes months numbers =
      ((flatLayout regCodes months).zip numbers).map
        (fun p => ⟨regionNameOf p.1.1, p.1.2, p.2⟩) := by
  rw [buildRows, outerRows_eq]
  rfl

theorem length_flatLayout (regCodes months : List String) :
    (flatLayout regCodes months).length = regCodes.length * months.length := by
  induction regCodes with
  | nil => simp [flatLayout]
  | cons rc rest ih =>
    simp only [flatLayout, List.flatMap_cons, List.length_append,
      List.length_map, List.length_cons] at *
    rw [ih]
    ring

theorem map_zip_get? (A : List α) (B : List β) (f : α × β → γ) :
    ∀ i, ((A.zip B).map f).get? i =
      (A.get? i).bind (fun a => (B.get? i).map (fun b => f (a, b))) := by
  induction A generalizing B with
  | nil => intro i; simp
  | cons a as ih =>
    intro i
    cases B with
    | nil => cases i <;> simp
    | cons b bs =>
      cases i with
      | zero => simp
      | succ j => simpa using ih bs j

theorem getElem?_eq_some_getD (l : List α) (i : Nat) (d : α) (h : i < l.length) :
    l[i]? = some (l.getD i d) := by
  rw [List.getD_eq_getElem _ _ h, List.getElem?_eq_getElem h]

theorem flatLayout_getElem? (months : List String) :
    ∀ (regCodes : List String) (ri mi : Nat), ri < regCodes.length →
      mi < months.length →
      (flatLayout regCodes months)[ri * months.length + mi]? =
        some (regCodes.getD ri "", months.getD mi "") := by
  intro regCodes
  induction regCodes with
  | nil => intro ri mi h; simp at h
  | cons rc rest ih =>
    intro ri mi hri hmi
    have hflat : flatLayout (rc :: rest) months =
        months.map (fun mo => (rc, mo)) ++ flatLayout rest months := by
      simp [flatLayout]
    rw [hflat]
    have hlen : (months.map (fun mo => (rc, mo))).length = months.length := by
      simp
    cases ri with
    | zero =>
      rw [List.getElem?_append, if_pos (by omega)]
      simp only [Nat.zero_mul, Nat.zero_add, List.getElem?_map]
      rw [getElem?_eq_some_getD months mi "" hmi]
      rfl
    | succ rj =>
      have hexp : (rj + 1) * months.length = rj * months.length + months.length := by
        ring
      rw [List.getElem?_append, if_neg (by omega)]
      have e : (rj + 1) * months.length + mi -
          (months.map (fun mo => (rc, mo))).length = rj * months.length + mi := by
        omega
      rw [e]
      exact ih rj mi (by simpa using hri) hmi

/-! ## C3: row layout of the parser -/

/-- C3: whenever the `DATA` block supplies at least `regions * months`
integers, the parser yields exactly `regions * months` rows, and the row at
flat index `ri * numMonths + mi` is the observation for the `ri`-th region
code (stored under its looked-up display name) and the `mi`-th requested
month, carrying the integer at that flat index; concretely, for codes
0581/0680, months 2025M01/2025M02 and `DATA=100,200,110,210` the four rows
come out exactly as claimed (region code 0581 is stored as its display name
Norrköping, 0680 as Jönköping). -/
theorem fetch_rows_layout :
    (∀ (regCodes months : List String) (numbers : List Int),
      regCodes.length * months.length ≤ numbers.length →
      (buildRows regCodes months numbers).length =
        regCodes.length * months.length) ∧
    (∀ (regCodes months : List String) (numbers : List Int) (ri mi : Nat),
      regCodes.length * months.length ≤ numbers.length →
      ri < regCodes.length → mi < months.length →
      (buildRows regCodes months numbers)[ri * months.length + mi]? =
        some ⟨regionNameOf (regCodes.getD ri ""), months.getD mi "",
          numbers.getD (ri * months.length + mi) 0⟩) ∧
    buildRows ["0581", "0680"] ["2025M01", "2025M02"] [100, 200, 110, 210] =
      [⟨regionNameOf "0581", "2025M01", 100⟩, ⟨regionNameOf "0581", "2025M02", 200⟩,
       ⟨regionNameOf "0680", "2025M01", 110⟩, ⟨regionNameOf "0680", "2025M02", 210⟩] := by
  refine ⟨?_, ?_, by decide⟩
  · intro regCodes months numbers hlen
    rw [buildRows_eq]
    simp [List.length_zip, length_flatLayout]
    omega
  · intro regCodes months numbers ri mi hlen hri hmi
    have hidx : ri * months.length + mi < regCodes.length * months.length := by
      have h1 : (ri + 1) * months.length = ri * months.length + months.length := by
        ring
      have hmul : (ri + 1) * months.length ≤ regCodes.length * months.length :=
        Nat.mul_le_mul_right _ (by omega)
      omega
    rw [buildRows_eq, ← List.get?_eq_getElem?, map_zip_get?,
      List.get?_eq_getElem?, List.get?_eq_getElem?,
      flatLayout_getElem? months regCodes ri mi hri hmi,
      getElem?_eq_some_getD numbers _ 0 (by omega)]
    rfl

/-- Witness for C3 at the concrete response of the claim (index (1, 0):
region code 0680, month 2025M01, value 110). -/
theorem fetch_rows_layout_witness :
    (buildRows ["0581", "0680"] ["2025M01", "2025M02"] [100, 200, 110, 210]).length
        = 2 * 2 ∧
      (buildRows ["0581", "0680"] ["2025M01", "2025M02"]
          [100, 200, 110, 210])[1 * 2 + 0]? =
        some ⟨regionNameOf (["0581", "0680"].getD 1 ""),
          ["2025M01", "2025M02"].getD 0 "",
          [(100 : Int), 200, 110, 210].getD (1 * 2 + 0) 0⟩ := by
  exact ⟨fetch_rows_layout.1 ["0581", "0680"] ["2025M01", "2025M02"]
      [100, 200, 110, 210] (by decide),
    fetch_rows_layout.2.1 ["0581", "0680"] ["2025M01", "2025M02"]
      [100, 200, 110, 210] 1 0 (by decide) (by decide) (by decide)⟩

/-! ## C7: graceful truncation on short `DATA` blocks -/

/-- C7: when the `DATA` block supplies fewer integers than
`regions * months`, the parser yields exactly one row per available value,
in layout order (the `i`-th row pairs the `i`-th flat layout entry with the
`i`-th integer), and never fails: the row loop is a total function of the
extracted values. -/
theorem fetch_rows_truncated :
    (∀ (regCodes months : List String) (numbers : List Int),
      numbers.length ≤ regCodes.length * months.length →
      (buildRows regCodes months numbers).length = numbers.length) ∧
    (∀ (regCodes months : List String) (numbers : List Int) (i : Nat),
      numbers.length ≤ regCodes.length * months.length →
      i < numbers.length →
      (buildRows regCodes months numbers)[i]? =
        some ⟨regionNameOf ((flatLayout regCodes months).getD i ("", "")).1,
          ((flatLayout regCodes months).getD i ("", "")).2,
          numbers.getD i 0⟩) := by
  constructor
  · intro regCodes months numbers hlen
    rw [buildRows_eq]
    simp [List.length_zip, length_flatLayout]
    omega
  · intro regCodes months numbers i hlen hi
    rw [buildRows_eq, ← List.get?_eq_getElem?, map_zip_get?,
      List.get?_eq_getElem?, List.get?_eq_getElem?,
      getElem?_eq_some_getD (flatLayout regCodes months) i ("", "")
        (by rw [length_flatLayout]; omega),
      getElem?_eq_some_getD numbers i 0 hi]
    rfl

/-- Witness for C7: `DATA` holds 3 of the expected 4 values; exactly 3 rows
come out, and row 2 pairs layout entry 2 (code 0680, month 2025M01) with the
third value. -/
theorem fetch_rows_truncated_witness :
    (buildRows ["0581", "0680"] ["2025M01", "2025M02"] [100, 200, 110]).length = 3 ∧
      (buildRows ["0581", "0680"] ["2025M01", "2025M02"] [100, 200, 110])[2]? =
        some ⟨regionNameOf ((flatLayout ["0581", "0680"]
            ["2025M01", "2025M02"]).getD 2 ("", "")).1,
          ((flatLayout ["0581", "0680"] ["2025M01", "2025M02"]).getD 2 ("", "")).2,
          [(100 : Int), 200, 110].getD 2 0⟩ := by
  exact ⟨fetch_rows_truncated.1 ["0581", "0680"] ["2025M01", "2025M02"]
      [100, 200, 110] (by decide),
    fetch_rows_truncated.2 ["0581", "0680"] ["2025M01", "2025M02"]
      [100, 200, 110] 2 (by decide) (by decide)⟩

/-! ## `eraseDups` membership -/

theorem mem_eraseDups_loop {α} [BEq α] [LawfulBEq α] (x : α) :
    ∀ (as bs : List α), (x ∈ List.eraseDups.loop as bs ↔ x ∈ as ∨ x ∈ bs) := by
  intro as
  induction as with
  | nil =>
    intro bs
    rw [List.eraseDups.loop]
    simp
  | cons a as ih =>
    intro bs
    rw [List.eraseDups.loop]
    cases he : bs.elem a with
    | true =>
      dsimp only
      rw [ih bs]
      have ha : a ∈ bs := (List.elem_iff).mp he
      simp only [List.mem_cons]
      constructor
      · tauto
      · rintro ((rfl | h) | h)
        · exact Or.inr ha
        · exact Or.inl h
        · exact Or.inr h
    | false =>
      dsimp only
      rw [ih (a :: bs)]
      simp only [List.mem_cons]
      tauto

theorem mem_eraseDups {α} [BEq α] [LawfulBEq α] {x : α} {l : List α} :
    x ∈ l.eraseDups ↔ x ∈ l := by
  rw [List.eraseDups, mem_eraseDups_loop]
  simp

/-! ## Characterisation of `find_latest_complete_month` -/

theorem flcmStep_acc_le (rows : List Obs) (allR : List String)
    (l : Date) (mstr : String) :
    ∃ l', flcmStep rows allR (some l) mstr = some l' ∧ dateLe l l' = true := by
  unfold flcmStep
  split
  · cases hpm : parse_month mstr with
    | none => exact ⟨l, rfl, dateLe_refl l⟩
    | some dm =>
      by_cases hlt : dateLt l dm = true
      · refine ⟨dm, ?_, ?_⟩
        · simp [hlt]
        · simp [dateLe, hlt]
      · refine ⟨l, ?_, dateLe_refl l⟩
        simp [hlt]
  · exact ⟨l, rfl, dateLe_refl l⟩

theorem foldl_flcm_sound (rows : List Obs) (allR : List String) :
    ∀ (ms : List String) (acc : Option Date) (d : Date),
      ms.foldl (flcmStep rows allR) acc = some d →
      acc = some d ∨ ∃ mstr ∈ ms, parse_month mstr = some d ∧
        setEqB (regionsForMonth rows mstr) allR = true := by
  intro ms
  induction ms with
  | nil => intro acc d h; exact Or.inl h
  | cons m ms ih =>
    intro acc d h
    rw [List.foldl_cons] at h
    rcases ih _ d h with hacc | ⟨mstr, hmem, hpm, hset⟩
    · unfold flcmStep at hacc
      split at hacc
      · rename_i hset
        cases hpm : parse_month m with
        | none => rw [hpm] at hacc; exact Or.inl hacc
        | some dm =>
          rw [hpm] at hacc
          cases acc with
          | none =>
            dsimp only at hacc
            injection hacc with hacc
            exact Or.inr ⟨m, List.mem_cons_self m ms, by rw [hpm, hacc], hset⟩
          | some l =>
            dsimp only at hacc
            split at hacc
            · injection hacc with hacc
              exact Or.inr ⟨m, List.mem_cons_self m ms, by rw [hpm, hacc], hset⟩
            · exact Or.inl hacc
      · exact Or.inl hacc
    · exact Or.inr ⟨mstr, List.mem_cons_of_mem m hmem, hpm, hset⟩

theorem foldl_flcm_ge (rows : List Obs) (allR : List String) :
    ∀ (ms : List String) (acc : Option Date) (d' : Date),
      (acc = some d' ∨ ∃ mstr ∈ ms, parse_month mstr = some d' ∧
        setEqB (regionsForMonth rows mstr) allR = true) →
      ∃ d, ms.foldl (flcmStep rows allR) acc = some d ∧ dateLe d' d = true := by
  intro ms
  induction ms with
  | nil =>
    intro acc d' h
    rcases h with h | ⟨mstr, hmem, _⟩
    · exact ⟨d', h, dateLe_refl d'⟩
    · exact absurd hmem (List.not_mem_nil mstr)
  | cons m ms ih =>
    intro acc d' h
    rw [List.foldl_cons]
    rcases h with hacc | ⟨mstr, hmem, hpm, hset⟩
    · subst hacc
      obtain ⟨l', hstep, hle⟩ := flcmStep_acc_le rows allR d' m
      rw [hstep]
      obtain ⟨d, hfold, hle'⟩ := ih (some l') l' (Or.inl rfl)
      exact ⟨d, hfold, dateLe_trans hle hle'⟩
    · rcases List.mem_cons.mp hmem with rfl | hmem'
      · have hstep : ∃ l', flcmStep rows allR acc mstr = some l' ∧
            dateLe d' l' = true := by
          unfold flcmStep
          rw [if_pos hset, hpm]
          cases acc with
          | none => exact ⟨d', rfl, dateLe_refl d'⟩
          | some l =>
            by_cases hlt : dateLt l d' = true
            · refine ⟨d', by simp [hlt], dateLe_refl d'⟩
            · refine ⟨l, by simp [hlt], ?_⟩
              rcases dateLt_or_le l d' with h | h
              · exact absurd h hlt
              · exact h
        obtain ⟨l', hstep, hle⟩ := hstep
        rw [hstep]
        obtain ⟨d, hfold, hle'⟩ := ih (some l') l' (Or.inl rfl)
        exact ⟨d, hfold, dateLe_trans hle hle'⟩
      · exact ih _ d' (Or.inr ⟨mstr, hmem', hpm, hset⟩)

/-- `find_latest_complete_month` returns `some d` exactly when `d` is a
candidate (some stored token decodes to it with a complete region set) that
dominates every other candidate. -/
theorem find_latest_iff (rows : List Obs) (allR : List String) (d : Date) :
    find_latest_complete_month rows allR = some d ↔
      (cand rows allR d ∧ ∀ d', cand rows allR d' → dateLe d' d = true) := by
  constructor
  · intro h
    constructor
    · rcases foldl_flcm_sound rows allR _ none d h with hacc | ⟨mstr, hmem, hpm, hset⟩
      · exact absurd hacc (by simp)
      · exact ⟨mstr, mem_eraseDups.mp hmem, hpm, hset⟩
    · intro d' ⟨mstr, hmem, hpm, hset⟩
      obtain ⟨dm, hfold, hle⟩ := foldl_flcm_ge rows allR _ none d'
        (Or.inr ⟨mstr, mem_eraseDups.mpr hmem, hpm, hset⟩)
      rw [find_latest_complete_month] at h
      rw [h] at hfold
      injection hfold with hfold
      rwa [← hfold] at hle
  · rintro ⟨⟨mstr, hmem, hpm, hset⟩, hdom⟩
    obtain ⟨dm, hfold, hle⟩ := foldl_flcm_ge rows allR _ none d
      (Or.inr ⟨mstr, mem_eraseDups.mpr hmem, hpm, hset⟩)
    have hcand : cand rows allR dm := by
      rcases foldl_flcm_sound rows allR _ none dm hfold with hacc | ⟨m2, hm2, hp2, hs2⟩
      · exact absurd hacc (by simp)
      · exact ⟨m2, mem_eraseDups.mp hm2, hp2, hs2⟩
    have : dm = d := dateLe_antisymm (hdom dm hcand) hle
    rw [find_latest_complete_month, hfold, this]

theorem find_latest_isSome_of_cand (rows : List Obs) (allR : List String)
    (d : Date) (h : cand rows allR d) :
    ∃ dm, find_latest_complete_month rows allR = some dm := by
  obtain ⟨mstr, hmem, hpm, hset⟩ := h
  obtain ⟨dm, hfold, _⟩ := foldl_flcm_ge rows allR _ none d
    (Or.inr ⟨mstr, mem_eraseDups.mpr hmem, hpm, hset⟩)
  exact ⟨dm, hfold⟩

/-! ## Shape of parsed months -/

theorem parse_month_valid (s : String) (d : Date) (h : parse_month s = some d) :
    1 ≤ d.year ∧ d.year ≤ 9999 ∧ 1 ≤ d.month ∧ d.month ≤ 12 ∧ d.day = 1 := by
  unfold parse_month at h
  cases hm : monthReMatch s with
  | none => rw [hm] at h; exact absurd h (by simp)
  | some p =>
    rw [hm] at h
    obtain ⟨y, mm⟩ := p
    dsimp only at h
    unfold mkDate at h
    split at h
    pick_goal 2
    · exact absurd h (by simp)
    rename_i hc
    injection h with h
    rw [← h]
    dsimp only
    omega

theorem parse_month_inv (s : String) (d : Date)
    (hc : asciiCanonicalToken s = true) (hp : parse_month s = some d) :
    ∃ c1 c2 c3 c4 c5 c6 : Char,
      s.data = [c1, c2, c3, c4, 'M', c5, c6] ∧
      c1.isDigit = true ∧ c2.isDigit = true ∧ c3.isDigit = true ∧
      c4.isDigit = true ∧ c5.isDigit = true ∧ c6.isDigit = true ∧
      d.year = ((digitVal c1 * 10 + digitVal c2) * 10 + digitVal c3) * 10
        + digitVal c4 ∧
      d.month = digitVal c5 * 10 + digitVal c6 ∧ d.day = 1 := by
  obtain ⟨data⟩ := s
  unfold parse_month monthReMatch at hp
  unfold asciiCanonicalToken at hc
  dsimp only at hp hc
  rcases data with _ | ⟨c1, _ | ⟨c2, _ | ⟨c3, _ | ⟨c4, _ | ⟨m, _ | ⟨c5,
    _ | ⟨c6, _ | ⟨c8, l⟩⟩⟩⟩⟩⟩⟩⟩
  · exact absurd hc (by simp)
  · exact absurd hc (by simp)
  · exact absurd hc (by simp)
  · exact absurd hc (by simp)
  · exact absurd hc (by simp)
  · exact absurd hc (by simp)
  · exact absurd hc (by simp)
  pick_goal 2
  · exact absurd hc (by simp)
  dsimp only at hp hc
  simp only [Bool.and_eq_true, decide_eq_true_eq] at hc
  obtain ⟨⟨⟨⟨⟨⟨hd1, hd2⟩, hd3⟩, hd4⟩, hm⟩, hd5⟩, hd6⟩ := hc
  subst hm
  have p1 := ascii_isPyDigit hd1
  have p2 := ascii_isPyDigit hd2
  have p3 := ascii_isPyDigit hd3
  have p4 := ascii_isPyDigit hd4
  have p5 := ascii_isPyDigit hd5
  have p6 := ascii_isPyDigit hd6
  unfold monthReGroups at hp
  rw [if_pos (by simp [p1.1, p2.1, p3.1, p4.1, p5.1, p6.1])] at hp
  dsimp only at hp
  rw [p1.2, p2.2, p3.2, p4.2, p5.2, p6.2] at hp
  unfold mkDate at hp
  split at hp
  pick_goal 2
  · exact absurd hp (by simp)
  injection hp with hp
  refine ⟨c1, c2, c3, c4, c5, c6, rfl, hd1, hd2, hd3, hd4, hd5, hd6, ?_, ?_, ?_⟩
  · rw [← hp]; dsimp only; omega
  · rw [← hp]; dsimp only; omega
  · rw [← hp]

/-! ## Token order versus date order -/

theorem digitChar_toNat {n : Nat} (h : n ≤ 9) : (digitChar n).toNat = 48 + n := by
  interval_cases n <;> decide

theorem digitChar_isDigit {n : Nat} (h : n ≤ 9) : (digitChar n).isDigit = true := by
  interval_cases n <;> decide

theorem digitVal_digitChar {n : Nat} (h : n ≤ 9) : digitVal (digitChar n) = n := by
  unfold digitVal
  rw [digitChar_toNat h]
  omega

/-- The characters `month_to_str` produces for a date with a four-digit year
(the `pad2` cases collapse to the uniform div/mod form). -/
theorem month_to_str_data (d : Date) (hy : 1000 ≤ d.year) (hy9 : d.year ≤ 9999) :
    (month_to_str d).data =
      [digitChar (d.year / 1000), digitChar (d.year / 100 % 10),
       digitChar (d.year / 10 % 10), digitChar (d.year % 10), 'M',
       digitChar (d.month / 10), digitChar (d.month % 10)] := by
  unfold month_to_str yearRepr pad2
  rw [if_neg (by omega), if_neg (by omega), if_neg (by omega)]
  by_cases hm : d.month < 10
  · rw [if_pos hm]
    have h0 : d.month / 10 = 0 := by omega
    have h1 : d.month % 10 = d.month := by omega
    rw [h0, h1]
    rfl
  · rw [if_neg hm]
    rfl

/-- One comparison step of the lexicographic string order. -/
theorem pyStrLeChars_cons (a b : Char) (as bs : List Char) :
    pyStrLeChars (a :: as) (b :: bs) = true ↔
      (a.toNat < b.toNat ∨ (a.toNat = b.toNat ∧ pyStrLeChars as bs = true)) := by
  rw [pyStrLeChars]
  by_cases h1 : a.toNat < b.toNat
  · simp [h1]
  · rw [if_neg h1]
    by_cases h2 : a.toNat = b.toNat
    · simp [h1, h2]
    · rw [if_neg h2]
      simp only [Bool.false_eq_true, false_iff]
      rintro (h | ⟨h, _⟩)
      · exact h1 h
      · exact h2 h

/-- Lexicographic comparison of two tokens `YYYYMmm` agrees with comparing
(year value, month value) lexicographically. -/
theorem pyStrLe_tokens
    (a1 a2 a3 a4 a5 a6 b1 b2 b3 b4 b5 b6 : Char)
    (ha1 : a1.isDigit = true) (ha2 : a2.isDigit = true)
    (ha3 : a3.isDigit = true) (ha4 : a4.isDigit = true)
    (ha5 : a5.isDigit = true) (ha6 : a6.isDigit = true)
    (hb1 : b1.isDigit = true) (hb2 : b2.isDigit = true)
    (hb3 : b3.isDigit = true) (hb4 : b4.isDigit = true)
    (hb5 : b5.isDigit = true) (hb6 : b6.isDigit = true) :
    pyStrLeChars [a1, a2, a3, a4, 'M', a5, a6] [b1, b2, b3, b4, 'M', b5, b6]
        = true ↔
      (((digitVal a1 * 10 + digitVal a2) * 10 + digitVal a3) * 10 + digitVal a4
          < ((digitVal b1 * 10 + digitVal b2) * 10 + digitVal b3) * 10 + digitVal b4
        ∨ (((digitVal a1 * 10 + digitVal a2) * 10 + digitVal a3) * 10 + digitVal a4
            = ((digitVal b1 * 10 + digitVal b2) * 10 + digitVal b3) * 10 + digitVal b4
          ∧ digitVal a5 * 10 + digitVal a6 ≤ digitVal b5 * 10 + digitVal b6)) := by
  obtain ⟨la1, ua1⟩ := isDigit_toNat ha1
  obtain ⟨la2, ua2⟩ := isDigit_toNat ha2
  obtain ⟨la3, ua3⟩ := isDigit_toNat ha3
  obtain ⟨la4, ua4⟩ := isDigit_toNat ha4
  obtain ⟨la5, ua5⟩ := isDigit_toNat ha5
  obtain ⟨la6, ua6⟩ := isDigit_toNat ha6
  obtain ⟨lb1, ub1⟩ := isDigit_toNat hb1
  obtain ⟨lb2, ub2⟩ := isDigit_toNat hb2
  obtain ⟨lb3, ub3⟩ := isDigit_toNat hb3
  obtain ⟨lb4, ub4⟩ := isDigit_toNat hb4
  obtain ⟨lb5, ub5⟩ := isDigit_toNat hb5
  obtain ⟨lb6, ub6⟩ := isDigit_toNat hb6
  unfold digitVal
  rw [pyStrLeChars_cons, pyStrLeChars_cons, pyStrLeChars_cons, pyStrLeChars_cons,
    pyStrLeChars_cons, pyStrLeChars_cons, pyStrLeChars_cons]
  simp only [show pyStrLeChars [] [] = true from rfl, eq_self_iff_true, and_true]
  rw [show ('M').toNat = 77 from rfl]
  simp only [lt_self_iff_false, false_or, true_and]
  omega

/-- For month-granularity dates (day 1), Python date `<=` is the expected
lexicographic order on (year, month). -/
theorem dateLe_iff_fields (a b : Date) (hda : a.day = 1) (hdb : b.day = 1) :
    dateLe a b = true ↔
      (a.year < b.year ∨ (a.year = b.year ∧ a.month ≤ b.month)) := by
  cases a; cases b
  simp only at hda hdb
  subst hda; subst hdb
  simp only [dateLe, dateLt, Bool.or_eq_true, Bool.and_eq_true,
    decide_eq_true_eq, Date.mk.injEq, lt_self_iff_false, and_false, or_false,
    and_true]
  omega

/-- Membership in the truncated row list returned by `read_existing`. -/
theorem read_existing_mem_iff (rows : List Obs) (d : Date)
    (hf : find_latest_complete_month rows allRegionNames = some d) (r : Obs) :
    r ∈ (read_existing rows).1 ↔
      r ∈ rows ∧ pyStrLe r.month (month_to_str d) = true := by
  unfold read_existing
  rw [hf]
  exact List.mem_filter

/-- When the latest complete month has a four-digit year, a row with a
parseable month token survives truncation exactly when its decoded month is
at most the latest complete month. -/
theorem kept_iff_dateLe (rows : List Obs) (d : Date) (r : Obs) (d' : Date)
    (hf : find_latest_complete_month rows allRegionNames = some d)
    (hy : 1000 ≤ d.year) (hcanon : asciiCanonicalToken r.month = true)
    (hp : parse_month r.month = some d') :
    r ∈ (read_existing rows).1 ↔ r ∈ rows ∧ dateLe d' d = true := by
  rw [read_existing_mem_iff rows d hf r]
  have hdval : 1 ≤ d.year ∧ d.year ≤ 9999 ∧ 1 ≤ d.month ∧ d.month ≤ 12 ∧
      d.day = 1 := by
    obtain ⟨⟨mstr, _, hpm, _⟩, _⟩ := (find_latest_iff rows allRegionNames d).mp hf
    exact parse_month_valid mstr d hpm
  obtain ⟨c1, c2, c3, c4, c5, c6, hdata, hd1, hd2, hd3, hd4, hd5, hd6,
    hyear, hmonth, hday⟩ := parse_month_inv r.month d' hcanon hp
  suffices hsuff : pyStrLe r.month (month_to_str d) = true ↔ dateLe d' d = true by
    rw [hsuff]
  unfold pyStrLe
  rw [hdata, month_to_str_data d hy hdval.2.1]
  rw [pyStrLe_tokens c1 c2 c3 c4 c5 c6 _ _ _ _ _ _ hd1 hd2 hd3 hd4 hd5 hd6
    (digitChar_isDigit (by omega)) (digitChar_isDigit (by omega))
    (digitChar_isDigit (by omega)) (digitChar_isDigit (by omega))
    (digitChar_isDigit (by omega)) (digitChar_isDigit (by omega))]
  rw [dateLe_iff_fields d' d hday hdval.2.2.2.2]
  rw [digitVal_digitChar (by omega), digitVal_digitChar (by omega),
    digitVal_digitChar (by omega), digitVal_digitChar (by omega),
    digitVal_digitChar (by omega), digitVal_digitChar (by omega)]
  rw [← hyear, ← hmonth]
  omega

/-! ## C2: latest complete month and load-time truncation -/

/-- C2 counterexample: with latest complete month `0581M01` (a valid token
whose year has three significant digits), the row for `0582M01` decodes to a
strictly later month, yet it survives truncation because the raw-string
comparison `"0582M01" <= month_to_str(581-01) = "581M01"` is true — the
loader does not discard every observation sorting after the latest complete
month.  Conversely, even with a four-digit latest year, the accepted
non-canonical token `"2025M01\n"` decodes to a month at most the latest, yet
its row is dropped because `"2025M01\n" <= "2025M01"` is false as a
raw-string comparison. -/
theorem reader_truncation_counterexample :
    (find_latest_complete_month
        [⟨"Norrköping", "0581M01", 1⟩, ⟨"Jönköping", "0581M01", 2⟩,
         ⟨"Norrköping", "0582M01", 3⟩] allRegionNames = some ⟨581, 1, 1⟩ ∧
      parse_month "0582M01" = some ⟨582, 1, 1⟩ ∧
      dateLt ⟨581, 1, 1⟩ ⟨582, 1, 1⟩ = true ∧
      (⟨"Norrköping", "0582M01", 3⟩ : Obs) ∈
        (read_existing
          [⟨"Norrköping", "0581M01", 1⟩, ⟨"Jönköping", "0581M01", 2⟩,
           ⟨"Norrköping", "0582M01", 3⟩]).1) ∧
      (find_latest_complete_month
          [⟨"Norrköping", "2025M01", 1⟩, ⟨"Jönköping", "2025M01", 2⟩,
           ⟨"Norrköping", "2025M01\n", 7⟩] allRegionNames = some ⟨2025, 1, 1⟩ ∧
        parse_month "2025M01\n" = some ⟨2025, 1, 1⟩ ∧
        dateLe ⟨2025, 1, 1⟩ ⟨2025, 1, 1⟩ = true ∧
        ¬ ((⟨"Norrköping", "2025M01\n", 7⟩ : Obs) ∈
          (read_existing
            [⟨"Norrköping", "2025M01", 1⟩, ⟨"Jönköping", "2025M01", 2⟩,
             ⟨"Norrköping", "2025M01\n", 7⟩]).1)) := by
  decide

/-- C2 amended: the reader's latest complete month is exactly the maximum
parseable stored token whose region set equals the tracked set; truncation
then keeps a row precisely when its raw token is lexicographically at most
`month_to_str(latest)` — which, whenever the latest month's year has four
digits, coincides for rows whose token is in canonical rendered form (four
ASCII digits, `M`, two ASCII digits) with keeping exactly the months not
sorting after the latest complete month.  The concrete {A, B} example of the
claim behaves exactly as stated. -/
theorem reader_latest_and_truncation :
    (∀ (rows : List Obs) (d : Date),
      find_latest_complete_month rows allRegionNames = some d ↔
        (cand rows allRegionNames d ∧
          ∀ d', cand rows allRegionNames d' → dateLe d' d = true)) ∧
    (∀ (rows : List Obs) (d : Date) (r : Obs),
      find_latest_complete_month rows allRegionNames = some d →
      (r ∈ (read_existing rows).1 ↔
        r ∈ rows ∧ pyStrLe r.month (month_to_str d) = true)) ∧
    (∀ (rows : List Obs) (d : Date) (r : Obs) (d' : Date),
      find_latest_complete_month rows allRegionNames = some d →
      1000 ≤ d.year → asciiCanonicalToken r.month = true →
      parse_month r.month = some d' →
      (r ∈ (read_existing rows).1 ↔ r ∈ rows ∧ dateLe d' d = true)) ∧
    (find_latest_complete_month
        [⟨"Norrköping", "2025M01", 1⟩, ⟨"Jönköping", "2025M01", 2⟩,
         ⟨"Norrköping", "2025M02", 3⟩, ⟨"Jönköping", "2025M02", 4⟩,
         ⟨"Norrköping", "2025M03", 5⟩] allRegionNames = some ⟨2025, 2, 1⟩ ∧
      (read_existing
        [⟨"Norrköping", "2025M01", 1⟩, ⟨"Jönköping", "2025M01", 2⟩,
         ⟨"Norrköping", "2025M02", 3⟩, ⟨"Jönköping", "2025M02", 4⟩,
         ⟨"Norrköping", "2025M03", 5⟩]).1 =
        [⟨"Norrköping", "2025M01", 1⟩, ⟨"Jönköping", "2025M01", 2⟩,
         ⟨"Norrköping", "2025M02", 3⟩, ⟨"Jönköping", "2025M02", 4⟩]) := by
  refine ⟨fun rows d => find_latest_iff rows allRegionNames d,
    fun rows d r hf => read_existing_mem_iff rows d hf r,
    fun rows d r d' hf hy hcanon hp => kept_iff_dateLe rows d r d' hf hy hcanon hp,
    by decide, by decide⟩

/-- Witness for the amended C2: in the claim's {A, B} dataset the month-3 row
decodes after the latest complete month 2025M02 and is indeed discarded. -/
theorem reader_latest_and_truncation_witness :
    ¬ ((⟨"Norrköping", "2025M03", 5⟩ : Obs) ∈
      (read_existing
        [⟨"Norrköping", "2025M01", 1⟩, ⟨"Jönköping", "2025M01", 2⟩,
         ⟨"Norrköping", "2025M02", 3⟩, ⟨"Jönköping", "2025M02", 4⟩,
         ⟨"Norrköping", "2025M03", 5⟩]).1) := by
  intro hmem
  have h := (reader_latest_and_truncation.2.2.1
    [⟨"Norrköping", "2025M01", 1⟩, ⟨"Jönköping", "2025M01", 2⟩,
     ⟨"Norrköping", "2025M02", 3⟩, ⟨"Jönköping", "2025M02", 4⟩,
     ⟨"Norrköping", "2025M03", 5⟩] ⟨2025, 2, 1⟩ ⟨"Norrköping", "2025M03", 5⟩
    ⟨2025, 3, 1⟩ (by decide) (by decide) (by decide) (by decide)).mp hmem
  exact absurd h.2 (by decide)

/-! ## C4: malformed persisted tokens -/

/-- C4 counterexample: the malformed token `"bogus"` is skipped during
latest-complete-month detection, but it is *not* retained by the load-time
truncation: `"bogus" <= "2025M01"` is false as a raw-string comparison, so
the row disappears from the in-memory collection. -/
theorem malformed_token_dropped_counterexample :
    parse_month "bogus" = none ∧
      find_latest_complete_month
        [⟨"Norrköping", "2025M01", 1⟩, ⟨"Jönköping", "2025M01", 2⟩,
         ⟨"Norrköping", "bogus", 3⟩] allRegionNames = some ⟨2025, 1, 1⟩ ∧
      (read_existing
        [⟨"Norrköping", "2025M01", 1⟩, ⟨"Jönköping", "2025M01", 2⟩,
         ⟨"Norrköping", "bogus", 3⟩]).1 =
        [⟨"Norrköping", "2025M01", 1⟩, ⟨"Jönköping", "2025M01", 2⟩] := by
  decide

theorem regionsForMonth_filter_parseable (rows : List Obs) (mstr : String)
    (hps : (parse_month mstr).isSome = true) :
    regionsForMonth (rows.filter (fun r => (parse_month r.month).isSome)) mstr =
      regionsForMonth rows mstr := by
  unfold regionsForMonth
  rw [List.filter_filter]
  congr 1
  apply List.filter_congr
  intro r _
  by_cases hq : r.month = mstr
  · rw [hq]
    simp [hps]
  · simp [hq]

theorem cand_filter_parseable (rows : List Obs) (allR : List String) (d : Date) :
    cand (rows.filter (fun r => (parse_month r.month).isSome)) allR d ↔
      cand rows allR d := by
  unfold cand
  constructor
  · rintro ⟨mstr, hmem, hpm, hset⟩
    refine ⟨mstr, ?_, hpm, ?_⟩
    · simp only [List.mem_map, List.mem_filter] at hmem ⊢
      obtain ⟨r, ⟨hr, _⟩, hrm⟩ := hmem
      exact ⟨r, hr, hrm⟩
    · rwa [regionsForMonth_filter_parseable rows mstr (by rw [hpm]; rfl)] at hset
  · rintro ⟨mstr, hmem, hpm, hset⟩
    refine ⟨mstr, ?_, hpm, ?_⟩
    · simp only [List.mem_map, List.mem_filter] at hmem ⊢
      obtain ⟨r, hr, hrm⟩ := hmem
      exact ⟨r, ⟨hr, by rw [hrm, hpm]; rfl⟩, hrm⟩
    · rwa [regionsForMonth_filter_parseable rows mstr (by rw [hpm]; rfl)]

/-- C4 amended: malformed month tokens are indeed invisible to
latest-complete-month detection (dropping every unparseable row changes
nothing), but load-time truncation compares raw tokens: a malformed row is
retained exactly when its token is lexicographically at most the rendered
latest-month token, and is otherwise removed from the collection. -/
theorem malformed_tokens_detection_and_truncation :
    (∀ rows : List Obs,
      find_latest_complete_month
          (rows.filter (fun r => (parse_month r.month).isSome)) allRegionNames =
        find_latest_complete_month rows allRegionNames) ∧
    (∀ (rows : List Obs) (d : Date) (r : Obs),
      find_latest_complete_month rows allRegionNames = some d →
      parse_month r.month = none → r ∈ rows →
      (r ∈ (read_existing rows).1 ↔
        pyStrLe r.month (month_to_str d) = true)) := by
  constructor
  · intro rows
    cases h : find_latest_complete_month rows allRegionNames with
    | some d =>
      rw [find_latest_iff] at h ⊢
      exact ⟨(cand_filter_parseable rows allRegionNames d).mpr h.1,
        fun d' hd' => h.2 d' ((cand_filter_parseable rows allRegionNames d').mp hd')⟩
    | none =>
      cases h2 : find_latest_complete_month
          (rows.filter (fun r => (parse_month r.month).isSome)) allRegionNames with
      | none => rfl
      | some d =>
        have hc : cand rows allRegionNames d :=
          (cand_filter_parseable rows allRegionNames d).mp
            ((find_latest_iff _ allRegionNames d).mp h2).1
        obtain ⟨dm, hdm⟩ := find_latest_isSome_of_cand rows allRegionNames d hc
        rw [h] at hdm
        exact absurd hdm (by simp)
  · intro rows d r hf _ hr
    rw [read_existing_mem_iff rows d hf r]
    simp [hr]

/-- Witness for the amended C4: a malformed token sorting lexically before
the latest token (`"1bogus" <= "2025M01"`) is retained verbatim. -/
theorem malformed_tokens_detection_witness :
    (⟨"Norrköping", "1bogus", 3⟩ : Obs) ∈
      (read_existing
        [⟨"Norrköping", "2025M01", 1⟩, ⟨"Jönköping", "2025M01", 2⟩,
         ⟨"Norrköping", "1bogus", 3⟩]).1 := by
  exact (malformed_tokens_detection_and_truncation.2
    [⟨"Norrköping", "2025M01", 1⟩, ⟨"Jönköping", "2025M01", 2⟩,
     ⟨"Norrköping", "1bogus", 3⟩] ⟨2025, 1, 1⟩ ⟨"Norrköping", "1bogus", 3⟩
    (by decide) (by decide) (by decide)).mpr (by decide)

/-! ## The sort order used by `main` -/

theorem pyStrLeChars_refl (l : List Char) : pyStrLeChars l l = true := by
  induction l with
  | nil => rfl
  | cons a as ih =>
    rw [pyStrLeChars, if_neg (by omega), if_pos rfl]
    exact ih

theorem pyStrLeChars_total (l1 : List Char) :
    ∀ l2, pyStrLeChars l1 l2 = true ∨ pyStrLeChars l2 l1 = true := by
  induction l1 with
  | nil => intro l2; left; rfl
  | cons a as ih =>
    intro l2
    cases l2 with
    | nil => right; rfl
    | cons b bs =>
      by_cases h1 : a.toNat < b.toNat
      · left; rw [pyStrLeChars, if_pos h1]
      · by_cases h2 : a.toNat = b.toNat
        · rcases ih bs with h | h
          · left; rw [pyStrLeChars, if_neg h1, if_pos h2]; exact h
          · right; rw [pyStrLeChars, if_neg (by omega), if_pos (by omega)]
            exact h
        · right; rw [pyStrLeChars, if_pos (by omega)]

theorem pyStrLeChars_trans (l1 : List Char) :
    ∀ l2 l3, pyStrLeChars l1 l2 = true → pyStrLeChars l2 l3 = true →
      pyStrLeChars l1 l3 = true := by
  induction l1 with
  | nil => intro l2 l3 _ _; rfl
  | cons a as ih =>
    intro l2 l3 h12 h23
    cases l2 with
    | nil => rw [pyStrLeChars] at h12; exact absurd h12 (by simp)
    | cons b bs =>
      cases l3 with
      | nil => rw [pyStrLeChars] at h23; exact absurd h23 (by simp)
      | cons c cs =>
        rw [pyStrLeChars_cons] at h12 h23 ⊢
        rcases h12 with h12 | ⟨h12e, h12r⟩ <;> rcases h23 with h23 | ⟨h23e, h23r⟩
        · left; omega
        · left; omega
        · left; omega
        · right; exact ⟨by omega, ih bs cs h12r h23r⟩

theorem dateLt_trans' {a b c : Date} (h1 : dateLt a b = true)
    (h2 : dateLt b c = true) : dateLt a c = true := by
  cases a; cases b; cases c
  simp only [dateLt, Bool.or_eq_true, Bool.and_eq_true, decide_eq_true_eq] at h1 h2 ⊢
  omega

theorem keyLe_total (a b : Date × String) :
    keyLe a b = true ∨ keyLe b a = true := by
  obtain ⟨d1, s1⟩ := a
  obtain ⟨d2, s2⟩ := b
  unfold keyLe
  dsimp only
  by_cases hlt : dateLt d1 d2 = true
  · left; simp [hlt]
  · by_cases heq : d1 = d2
    · rcases pyStrLeChars_total s1.data s2.data with h | h
      · left
        simp only [Bool.or_eq_true, Bool.and_eq_true, decide_eq_true_eq]
        exact Or.inr ⟨heq, h⟩
      · right
        simp only [Bool.or_eq_true, Bool.and_eq_true, decide_eq_true_eq]
        exact Or.inr ⟨heq.symm, h⟩
    · right
      rcases dateLt_or_le d2 d1 with h | h
      · simp [h]
      · exfalso
        unfold dateLe at h
        simp only [Bool.or_eq_true, decide_eq_true_eq] at h
        rcases h with h | h
        · exact hlt h
        · exact heq h

theorem keyLe_trans {a b c : Date × String} (h1 : keyLe a b = true)
    (h2 : keyLe b c = true) : keyLe a c = true := by
  obtain ⟨d1, s1⟩ := a
  obtain ⟨d2, s2⟩ := b
  obtain ⟨d3, s3⟩ := c
  unfold keyLe at h1 h2 ⊢
  simp only [Bool.or_eq_true, Bool.and_eq_true, decide_eq_true_eq] at h1 h2 ⊢
  rcases h1 with h1 | ⟨h1e, h1s⟩ <;> rcases h2 with h2 | ⟨h2e, h2s⟩
  · exact Or.inl (dateLt_trans' h1 h2)
  · exact Or.inl (h2e ▸ h1)
  · exact Or.inl (h1e ▸ h2)
  · exact Or.inr ⟨h1e.trans h2e, pyStrLeChars_trans _ _ _ h1s h2s⟩

/-! ## Stable insertion sort: permutation and sortedness -/

open List

theorem insertLe_perm (le : α → α → Bool) (a : α) (l : List α) :
    insertLe le a l ~ a :: l := by
  induction l with
  | nil => exact List.Perm.refl _
  | cons b bs ih =>
    rw [insertLe]
    by_cases h : le a b = true
    · rw [if_pos h]
    · rw [if_neg h]
      calc (b :: insertLe le a bs) ~ (b :: a :: bs) := List.Perm.cons b ih
        _ ~ (a :: b :: bs) := List.Perm.swap a b bs

theorem stableSort_perm (le : α → α → Bool) (l : List α) :
    stableSort le l ~ l := by
  induction l with
  | nil => exact List.Perm.refl _
  | cons a as ih =>
    calc stableSort le (a :: as) = insertLe le a (stableSort le as) := rfl
      _ ~ (a :: stableSort le as) := insertLe_perm le a _
      _ ~ (a :: as) := List.Perm.cons a ih

theorem mem_insertLe {le : α → α → Bool} {x a : α} {l : List α} :
    x ∈ insertLe le a l ↔ x = a ∨ x ∈ l := by
  rw [(insertLe_perm le a l).mem_iff, List.mem_cons]

theorem pairwise_insertLe (le : α → α → Bool)
    (total : ∀ a b, le a b = true ∨ le b a = true)
    (htrans : ∀ a b c, le a b = true → le b c = true → le a c = true)
    (a : α) (l : List α) (hl : l.Pairwise (fun x y => le x y = true)) :
    (insertLe le a l).Pairwise (fun x y => le x y = true) := by
  induction l with
  | nil => simp [insertLe]
  | cons b bs ih =>
    rw [List.pairwise_cons] at hl
    obtain ⟨hb, hbs⟩ := hl
    rw [insertLe]
    by_cases h : le a b = true
    · rw [if_pos h]
      rw [List.pairwise_cons]
      constructor
      · intro x hx
        rcases List.mem_cons.mp hx with rfl | hx
        · exact h
        · exact htrans a b x h (hb x hx)
      · exact List.pairwise_cons.mpr ⟨hb, hbs⟩
    · rw [if_neg h]
      rw [List.pairwise_cons]
      constructor
      · intro x hx
        rcases mem_insertLe.mp hx with rfl | hx
        · rcases total x b with ht | ht
          · exact absurd ht h
          · exact ht
        · exact hb x hx
      · exact ih hbs

theorem stableSort_pairwise (le : α → α → Bool)
    (total : ∀ a b, le a b = true ∨ le b a = true)
    (htrans : ∀ a b c, le a b = true → le b c = true → le a c = true)
    (l : List α) :
    (stableSort le l).Pairwise (fun x y => le x y = true) := by
  induction l with
  | nil => exact List.Pairwise.nil
  | cons a as ih =>
    rw [stableSort]
    exact pairwise_insertLe le total htrans a _ ih

/-! ## `sortRows`: permutation, sortedness -/

theorem decorate_map_snd :
    ∀ (rows : List Obs) (keyed : List ((Date × String) × Obs)),
      decorate rows = some keyed → keyed.map (·.2) = rows := by
  intro rows
  induction rows with
  | nil =>
    intro keyed h
    rw [decorate] at h
    injection h with h
    rw [← h]
    rfl
  | cons r rest ih =>
    intro keyed h
    rw [decorate] at h
    cases hk : sort_key r with
    | none => rw [hk] at h; exact absurd h (by simp)
    | some k =>
      rw [hk] at h
      cases hd : decorate rest with
      | none => rw [hd] at h; exact absurd h (by simp)
      | some ds =>
        rw [hd] at h
        dsimp only at h
        injection h with h
        rw [← h, List.map_cons, ih ds hd]

theorem decorate_keys :
    ∀ (rows : List Obs) (keyed : List ((Date × String) × Obs)),
      decorate rows = some keyed → ∀ p ∈ keyed, sort_key p.2 = some p.1 := by
  intro rows
  induction rows with
  | nil =>
    intro keyed h p hp
    rw [decorate] at h
    injection h with h
    rw [← h] at hp
    exact absurd hp (List.not_mem_nil p)
  | cons r rest ih =>
    intro keyed h p hp
    rw [decorate] at h
    cases hk : sort_key r with
    | none => rw [hk] at h; exact absurd h (by simp)
    | some k =>
      rw [hk] at h
      cases hd : decorate rest with
      | none => rw [hd] at h; exact absurd h (by simp)
      | some ds =>
        rw [hd] at h
        dsimp only at h
        injection h with h
        rw [← h] at hp
        rcases List.mem_cons.mp hp with rfl | hp'
        · exact hk
        · exact ih ds hd p hp'

theorem sortRows_perm (rows out : List Obs) (h : sortRows rows = some out) :
    out ~ rows := by
  unfold sortRows at h
  cases hd : decorate rows with
  | none => rw [hd] at h; exact absurd h (by simp)
  | some keyed =>
    rw [hd] at h
    dsimp only at h
    injection h with h
    rw [← h]
    calc (stableSort (fun a b => keyLe a.1 b.1) keyed).map (·.2)
        ~ keyed.map (·.2) := List.Perm.map _ (stableSort_perm _ keyed)
      _ = rows := decorate_map_snd rows keyed hd

theorem sortRows_sorted (rows out : List Obs) (h : sortRows rows = some out) :
    out.Pairwise (fun a b => obsLeB a b = true) := by
  unfold sortRows at h
  cases hd : decorate rows with
  | none => rw [hd] at h; exact absurd h (by simp)
  | some keyed =>
    rw [hd] at h
    dsimp only at h
    injection h with h
    have hsorted := stableSort_pairwise (fun a b => keyLe a.1 b.1)
      (fun a b => keyLe_total a.1 b.1)
      (fun a b c h1 h2 => keyLe_trans (show keyLe a.1 b.1 = true from h1)
        (show keyLe b.1 c.1 = true from h2)) keyed
    have hmem : ∀ p ∈ stableSort (fun a b => keyLe a.1 b.1) keyed,
        sort_key p.2 = some p.1 := by
      intro p hp
      exact decorate_keys rows keyed hd p
        ((stableSort_perm _ keyed).mem_iff.mp hp)
    have h2 : (stableSort (fun a b => keyLe a.1 b.1) keyed).Pairwise
        (fun p q => obsLeB p.2 q.2 = true) := by
      refine hsorted.imp_of_mem ?_
      intro p q hp hq hle
      unfold obsLeB
      rw [hmem p hp, hmem q hq]
      exact hle
    rw [← h]
    exact List.pairwise_map.mpr h2

/-! ## Merge-loop lemmas -/

theorem mergeLoop_all_seen :
    ∀ (fetched rows : List Obs) (seen : List (String × String)) (added : Nat),
      (∀ r ∈ fetched, obsKey r ∈ seen) →
      mergeLoop rows seen added fetched = (rows, seen, added) := by
  intro fetched
  induction fetched with
  | nil => intro rows seen added _; rfl
  | cons r rest ih =>
    intro rows seen added h
    rw [mergeLoop, if_pos (h r (List.mem_cons_self r rest))]
    exact ih rows seen added (fun x hx => h x (List.mem_cons_of_mem r hx))

theorem mergeLoop_nodup_keys :
    ∀ (fetched rows : List Obs) (seen : List (String × String)) (added : Nat),
      (rows.map obsKey).Nodup → (∀ r ∈ rows, obsKey r ∈ seen) →
      ((mergeLoop rows seen added fetched).1.map obsKey).Nodup := by
  intro fetched
  induction fetched with
  | nil => intro rows seen added hnd _; exact hnd
  | cons r rest ih =>
    intro rows seen added hnd hsub
    rw [mergeLoop]
    by_cases h : obsKey r ∈ seen
    · rw [if_pos h]
      exact ih rows seen added hnd hsub
    · rw [if_neg h]
      apply ih
      · simp only [List.map_append, List.map_cons, List.map_nil]
        have hperm : rows.map obsKey ++ [obsKey r] ~ obsKey r :: rows.map obsKey :=
          List.perm_append_singleton _ _
        rw [hperm.nodup_iff]
        refine List.nodup_cons.mpr ⟨?_, hnd⟩
        intro hc
        obtain ⟨x, hx, hxe⟩ := List.mem_map.mp hc
        exact h (hxe ▸ hsub x hx)
      · intro x hx
        rcases List.mem_append.mp hx with hx | hx
        · exact List.mem_cons_of_mem _ (hsub x hx)
        · rw [List.mem_singleton.mp hx]
          exact List.mem_cons_self _ _

theorem mergeLoop_filter_key :
    ∀ (fetched rows : List Obs) (seen : List (String × String)) (added : Nat)
      (k : String × String), k ∈ seen →
      (mergeLoop rows seen added fetched).1.filter (fun x => obsKey x = k) =
        rows.filter (fun x => obsKey x = k) := by
  intro fetched
  induction fetched with
  | nil => intro rows seen added k _; rfl
  | cons r rest ih =>
    intro rows seen added k hk
    rw [mergeLoop]
    by_cases h : obsKey r ∈ seen
    · rw [if_pos h]
      exact ih rows seen added k hk
    · rw [if_neg h]
      rw [ih (rows ++ [r]) _ _ k (List.mem_cons_of_mem _ hk)]
      rw [List.filter_append]
      have hne : obsKey r ≠ k := fun he => h (he ▸ hk)
      have hsingle : [r].filter (fun x => obsKey x = k) = [] := by
        simp [hne]
      rw [hsingle, List.append_nil]

/-! ## `run` inversion and the dataset invariants -/

theorem read_existing_seen_eq (fileRows : List Obs) :
    (read_existing fileRows).2.1 = (read_existing fileRows).1.map obsKey := rfl

theorem read_existing_nodup (fileRows : List Obs)
    (hnd : (fileRows.map obsKey).Nodup) :
    ((read_existing fileRows).1.map obsKey).Nodup := by
  unfold read_existing
  dsimp only
  cases find_latest_complete_month fileRows allRegionNames with
  | none => exact hnd
  | some l =>
    exact List.Nodup.sublist ((List.filter_sublist fileRows).map obsKey) hnd

theorem run_write_inversion (fileRows fetched out : List Obs)
    (h : run fileRows fetched = .ok (some out)) :
    sortRows (mergeLoop (read_existing fileRows).1
      (read_existing fileRows).2.1 0 fetched).1 = some out := by
  unfold run at h
  dsimp only at h
  cases hl : (read_existing fileRows).2.2 with
  | none => rw [hl] at h; exact absurd h (by simp)
  | some l =>
    rw [hl] at h
    dsimp only at h
    by_cases hz : (mergeLoop (read_existing fileRows).1
        (read_existing fileRows).2.1 0 fetched).2.2 = 0
    · rw [if_pos hz] at h
      exact absurd h (by simp)
    · rw [if_neg hz] at h
      cases hs : sortRows (mergeLoop (read_existing fileRows).1
          (read_existing fileRows).2.1 0 fetched).1 with
      | none => rw [hs] at h; exact absurd h (by simp)
      | some sorted =>
        rw [hs] at h
        dsimp only at h
        exact Except.ok.inj h

theorem run_write_inv (fileRows fetched out : List Obs)
    (hnd : (fileRows.map obsKey).Nodup)
    (h : run fileRows fetched = .ok (some out)) : Inv out := by
  have hs := run_write_inversion fileRows fetched out h
  have hkept_nodup := read_existing_nodup fileRows hnd
  have hmerged_nodup := mergeLoop_nodup_keys fetched (read_existing fileRows).1
    (read_existing fileRows).2.1 0 hkept_nodup
    (fun r hr => by rw [read_existing_seen_eq]; exact List.mem_map_of_mem obsKey hr)
  constructor
  · exact sortRows_sorted _ out hs
  · have hperm := sortRows_perm _ out hs
    exact ((hperm.map obsKey).nodup_iff).mpr hmerged_nodup

theorem sort_key_of_parse (r : Obs) (d : Date)
    (h : parse_month r.month = some d) : sort_key r = some (d, r.region) := by
  have hm : ∃ p, monthReMatch r.month = some p := by
    cases hm2 : monthReMatch r.month with
    | none =>
      exfalso
      unfold parse_month at h
      rw [hm2] at h
      exact absurd h (by simp)
    | some p => exact ⟨p, rfl⟩
  obtain ⟨p, hp⟩ := hm
  unfold sort_key
  rw [hp]
  dsimp only
  rw [h]

theorem obsLeB_decoded {a b : Obs} (h : obsLeB a b = true) :
    ∀ da db, parse_month a.month = some da → parse_month b.month = some db →
      (dateLt da db = true ∨ (da = db ∧ pyStrLe a.region b.region = true)) := by
  intro da db hda hdb
  unfold obsLeB at h
  rw [sort_key_of_parse a da hda, sort_key_of_parse b db hdb] at h
  dsimp only at h
  unfold keyLe at h
  simp only [Bool.or_eq_true, Bool.and_eq_true, decide_eq_true_eq] at h
  exact h

theorem inv_decodedSorted {rows : List Obs}
    (h : rows.Pairwise (fun a b => obsLeB a b = true)) : decodedSorted rows :=
  h.imp (fun hab da db hda hdb => obsLeB_decoded hab da db hda hdb)

theorem runSeq_inv :
    ∀ (fs : List (List Obs)) (fileRows : List Obs),
      Inv fileRows → Inv (runSeq fileRows fs) := by
  intro fs
  induction fs with
  | nil => intro fileRows h; exact h
  | cons f fs ih =>
    intro fileRows h
    rw [runSeq]
    cases hr : run fileRows f with
    | error e => exact ih fileRows h
    | ok o =>
      cases o with
      | none => exact ih fileRows h
      | some out => exact ih out (run_write_inv fileRows f out h.2 hr)

/-! ## C1: sortedness and uniqueness of the persisted collection -/

/-- C1: starting from a dataset satisfying the invariant (sorted by the
script's sort key — decoded month ascending, then region name — with no
duplicate (region, month) pair), every run that writes the file writes a
collection satisfying the same invariant, stated also in the claim's own
terms (`decodedSorted`); and the invariant holds after any sequence of
successive runs, each seeing the file its predecessor left. -/
theorem run_preserves_invariants (fileRows : List Obs) (hInv : Inv fileRows) :
    (∀ fetched out, run fileRows fetched = .ok (some out) →
      Inv out ∧ decodedSorted out) ∧
    (∀ fs, Inv (runSeq fileRows fs) ∧ decodedSorted (runSeq fileRows fs)) := by
  constructor
  · intro fetched out h
    have hi := run_write_inv fileRows fetched out hInv.2 h
    exact ⟨hi, inv_decodedSorted hi.1⟩
  · intro fs
    have hi := runSeq_inv fs fileRows hInv
    exact ⟨hi, inv_decodedSorted hi.1⟩

/-- Witness for C1: a concrete sorted two-row file, one fetch adding a new
month; the invariant holds before and after the run sequence. -/
theorem run_preserves_invariants_witness :
    Inv [(⟨"Jönköping", "2025M01", 2⟩ : Obs), ⟨"Norrköping", "2025M01", 1⟩] ∧
      Inv (runSeq [⟨"Jönköping", "2025M01", 2⟩, ⟨"Norrköping", "2025M01", 1⟩]
        [[⟨"Norrköping", "2025M02", 4⟩, ⟨"Jönköping", "2025M02", 3⟩]]) := by
  have h0 : Inv [(⟨"Jönköping", "2025M01", 2⟩ : Obs),
      ⟨"Norrköping", "2025M01", 1⟩] := by
    constructor
    · decide
    · decide
  exact ⟨h0, ((run_preserves_invariants _ h0).2 _).1⟩

/-! ## C8: merging an already-seen pair is a no-op -/

/-- C8: a fetched observation whose (region, month) pair is already in the
de-duplication index is skipped by the merge loop; if every fetched row is
already seen, the in-memory dataset and index are unchanged and the
added-count stays 0; and a run that adds nothing exits without writing the
file. -/
theorem merge_idempotent :
    (∀ (rows : List Obs) (seen : List (String × String)) (added : Nat)
        (r : Obs) (rest : List Obs), obsKey r ∈ seen →
      mergeLoop rows seen added (r :: rest) = mergeLoop rows seen added rest) ∧
    (∀ (rows : List Obs) (seen : List (String × String)) (added : Nat)
        (fetched : List Obs), (∀ r ∈ fetched, obsKey r ∈ seen) →
      mergeLoop rows seen added fetched = (rows, seen, added)) ∧
    (∀ (fileRows fetched : List Obs),
      (∀ r ∈ fetched, obsKey r ∈ (read_existing fileRows).2.1) →
      run fileRows fetched = .ok none) := by
  refine ⟨?_, ?_, ?_⟩
  · intro rows seen added r rest h
    rw [mergeLoop, if_pos h]
  · intro rows seen added fetched h
    exact mergeLoop_all_seen fetched rows seen added h
  · intro fileRows fetched h
    unfold run
    dsimp only
    cases hl : (read_existing fileRows).2.2 with
    | none => rfl
    | some l =>
      dsimp only
      rw [mergeLoop_all_seen fetched _ _ 0 h]
      rfl

/-- Witness for C8: re-fetching an already-present (region, month) pair
leaves the file unwritten. -/
theorem merge_idempotent_witness :
    run [⟨"Jönköping", "2025M01", 2⟩, ⟨"Norrköping", "2025M01", 1⟩]
      [⟨"Norrköping", "2025M01", 999⟩] = .ok none := by
  exact merge_idempotent.2.2
    [⟨"Jönköping", "2025M01", 2⟩, ⟨"Norrköping", "2025M01", 1⟩]
    [⟨"Norrköping", "2025M01", 999⟩] (by decide)

/-! ## C10: a re-fetch never overwrites a persisted value -/

theorem filter_key_singleton :
    ∀ (rows : List Obs), (rows.map obsKey).Nodup →
      ∀ r ∈ rows, rows.filter (fun x => obsKey x = obsKey r) = [r] := by
  intro rows
  induction rows with
  | nil => intro _ r hr; exact absurd hr (List.not_mem_nil r)
  | cons a as ih =>
    intro hnd r hr
    rw [List.map_cons, List.nodup_cons] at hnd
    obtain ⟨ha, hnd2⟩ := hnd
    rcases List.mem_cons.mp hr with rfl | hr2
    · rw [List.filter_cons, if_pos (by simp)]
      have hrest : as.filter (fun x => obsKey x = obsKey r) = [] := by
        rw [List.filter_eq_nil_iff]
        intro x hx
        simp only [decide_eq_true_eq]
        intro he
        exact ha (he ▸ List.mem_map_of_mem obsKey hx)
      rw [hrest]
    · have hne : obsKey a ≠ obsKey r := by
        intro he
        exact ha (he ▸ List.mem_map_of_mem obsKey hr2)
      rw [List.filter_cons, if_neg (by simp [hne])]
      exact ih hnd2 r hr2

/-- C10 counterexample: a persisted value *can* be overwritten by a later
fetch.  The file holds `Norrköping 2025M02 = 100`, but 2025M02 is incomplete
(no Jönköping row), so the loader truncates that row away; a re-fetch then
supplies `Norrköping 2025M02 = 999` with a key no longer in `seen`, the row
is appended, and the written file carries 999 where 100 had been persisted. -/
theorem refetch_overwrite_counterexample :
    ((⟨"Norrköping", "2025M02", 100⟩ : Obs) ∈
        [(⟨"Norrköping", "2025M01", 1⟩ : Obs), ⟨"Jönköping", "2025M01", 2⟩,
         ⟨"Norrköping", "2025M02", 100⟩]) ∧
      run [⟨"Norrköping", "2025M01", 1⟩, ⟨"Jönköping", "2025M01", 2⟩,
           ⟨"Norrköping", "2025M02", 100⟩]
          [⟨"Norrköping", "2025M02", 999⟩, ⟨"Jönköping", "2025M02", 3⟩]
        = .ok (some [⟨"Jönköping", "2025M01", 2⟩, ⟨"Norrköping", "2025M01", 1⟩,
                     ⟨"Jönköping", "2025M02", 3⟩,
                     ⟨"Norrköping", "2025M02", 999⟩]) ∧
      ((⟨"Norrköping", "2025M02", 999⟩ : Obs) ∈
        [(⟨"Jönköping", "2025M01", 2⟩ : Obs), ⟨"Norrköping", "2025M01", 1⟩,
         ⟨"Jönköping", "2025M02", 3⟩, ⟨"Norrköping", "2025M02", 999⟩]) ∧
      ¬ ((⟨"Norrköping", "2025M02", 100⟩ : Obs) ∈
        [(⟨"Jönköping", "2025M01", 2⟩ : Obs), ⟨"Norrköping", "2025M01", 1⟩,
         ⟨"Jönköping", "2025M02", 3⟩, ⟨"Norrköping", "2025M02", 999⟩]) := by
  decide

/-- C10 amended: if the starting dataset has no duplicate (region, month)
pairs, then any observation the reader *kept* (i.e. that survived load-time
truncation) survives every file-writing run verbatim, and remains the unique
observation with its (region, month) pair in the written collection — a
re-fetched row carrying the same pair (with any population value) is
discarded.  Persisted rows the loader truncates away (partial months) are
not protected: a re-fetch can replace their values. -/
theorem refetch_never_overwrites (fileRows fetched : List Obs)
    (hnd : (fileRows.map obsKey).Nodup) (r : Obs)
    (hr : r ∈ (read_existing fileRows).1) (out : List Obs)
    (hrun : run fileRows fetched = .ok (some out)) :
    r ∈ out ∧ ∀ r2 ∈ out, obsKey r2 = obsKey r → r2 = r := by
  have hs := run_write_inversion fileRows fetched out hrun
  have hkept_nodup := read_existing_nodup fileRows hnd
  have hkmem : obsKey r ∈ (read_existing fileRows).2.1 := by
    rw [read_existing_seen_eq]
    exact List.mem_map_of_mem obsKey hr
  have hfilter := mergeLoop_filter_key fetched (read_existing fileRows).1
    (read_existing fileRows).2.1 0 (obsKey r) hkmem
  have hkept_single := filter_key_singleton _ hkept_nodup r hr
  have hperm := sortRows_perm _ out hs
  have hpf : out.filter (fun x => obsKey x = obsKey r) ~ [r] := by
    calc out.filter (fun x => obsKey x = obsKey r)
        ~ (mergeLoop (read_existing fileRows).1 (read_existing fileRows).2.1
            0 fetched).1.filter (fun x => obsKey x = obsKey r) :=
          hperm.filter _
      _ = [r] := by rw [hfilter, hkept_single]
  have hout : out.filter (fun x => obsKey x = obsKey r) = [r] :=
    List.perm_singleton.mp hpf
  constructor
  · have hmem : r ∈ out.filter (fun x => obsKey x = obsKey r) := by
      rw [hout]
      exact List.mem_cons_self r []
    exact List.mem_of_mem_filter hmem
  · intro r2 h2 hk
    have hmem : r2 ∈ out.filter (fun x => obsKey x = obsKey r) :=
      List.mem_filter.mpr ⟨h2, by simp [hk]⟩
    rw [hout] at hmem
    exact List.mem_singleton.mp hmem

/-- Witness for C10: a run fetches a conflicting population (999) for an
existing pair plus two genuinely new rows; the original observation (with
population 7) survives as the unique row for its pair. -/
theorem refetch_never_overwrites_witness :
    (⟨"Norrköping", "2025M01", 7⟩ : Obs) ∈
        [(⟨"Jönköping", "2025M01", 5⟩ : Obs), ⟨"Norrköping", "2025M01", 7⟩,
         ⟨"Jönköping", "2025M02", 9⟩, ⟨"Norrköping", "2025M02", 8⟩] ∧
      (∀ r2 ∈ [(⟨"Jönköping", "2025M01", 5⟩ : Obs), ⟨"Norrköping", "2025M01", 7⟩,
          ⟨"Jönköping", "2025M02", 9⟩, ⟨"Norrköping", "2025M02", 8⟩],
        obsKey r2 = obsKey ⟨"Norrköping", "2025M01", 7⟩ →
          r2 = ⟨"Norrköping", "2025M01", 7⟩) := by
  exact refetch_never_overwrites
    [⟨"Jönköping", "2025M01", 5⟩, ⟨"Norrköping", "2025M01", 7⟩]
    [⟨"Norrköping", "2025M01", 999⟩, ⟨"Jönköping", "2025M02", 9⟩,
     ⟨"Norrköping", "2025M02", 8⟩]
    (by decide) ⟨"Norrköping", "2025M01", 7⟩ (by decide)
    [⟨"Jönköping", "2025M01", 5⟩, ⟨"Norrköping", "2025M01", 7⟩,
     ⟨"Jönköping", "2025M02", 9⟩, ⟨"Norrköping", "2025M02", 8⟩]
    (by decide)

end UpdateData
